import Mathlib

/-!
Shallow embedding of `PointerSubgraphValidator.cpp` from the dg repository
(namespace `dg::analysis::pta::debug`), together with a formalisation of the
structural invariants its specification ascribes to pointer subgraphs.

Node pointers (`const PSNode *`) are modelled as natural numbers; the
subgraph owns an arena associating a pointer to its node payload, and the
validator dereferences through the arena.  Diagnostics are modelled as a
list of structured entries (category, reported node, free-form message);
the C++ accumulated `errors` string is the rendering of that list.
-/

/-- Modelled from the spec: a non-owning reference to a graph node
(a `const PSNode *` in the source); the data model of §3 represents such
references as stable identities, which we take to be natural numbers. -/
abbrev Ptr : Type := Nat

/-- Modelled from the spec: the closed set of node kinds of §3 (the
`PSNodeType` enumeration, whose declaration is outside the excerpted
sources). -/
inductive PSNodeType : Type
  | NOOP
  | NULL_ADDR
  | UNKNOWN_MEM
  | FUNCTION
  | PHI
  | CAST
  | GEP
  | LOAD
  | STORE
  | MEMCPY
  | FREE
  | INVALIDATE_OBJECT
  | CONSTANT
deriving DecidableEq, Repr

/-- Modelled from the spec: `PSNodeTypeToCString`, declared outside the
excerpted sources; yields the printable name of a node kind. -/
def psNodeTypeToCString : PSNodeType → String
  | PSNodeType.NOOP => "NOOP"
  | PSNodeType.NULL_ADDR => "NULL_ADDR"
  | PSNodeType.UNKNOWN_MEM => "UNKNOWN_MEM"
  | PSNodeType.FUNCTION => "FUNCTION"
  | PSNodeType.PHI => "PHI"
  | PSNodeType.CAST => "CAST"
  | PSNodeType.GEP => "GEP"
  | PSNodeType.LOAD => "LOAD"
  | PSNodeType.STORE => "STORE"
  | PSNodeType.MEMCPY => "MEMCPY"
  | PSNodeType.FREE => "FREE"
  | PSNodeType.INVALIDATE_OBJECT => "INVALIDATE_OBJECT"
  | PSNodeType.CONSTANT => "CONSTANT"

/-- Modelled from the spec: the payload of a `PSNode` (§3 data model):
an integer ID, a kind, the ordered operand list, and the predecessor and
successor edge lists (the accessors `getID`, `getType`, `getOperands`,
`getPredecessors`, `getSuccessors` of the source). -/
structure PSNodeData : Type where
  id : Nat
  type : PSNodeType
  operands : List Ptr
  predecessors : List Ptr
  successors : List Ptr
deriving DecidableEq, Repr

/-- Payload a dangling pointer dereferences to (arbitrary; the source never
relies on the payload of a pointer outside the arena for its verdict). -/
def defaultPSNode : PSNodeData :=
  PSNodeData.mk 0 PSNodeType.NOOP [] [] []

/-- Modelled from the spec: a `PointerSubgraph` (§3): the owned collection
of nodes (`arena`, pointer to payload), the node sequence returned by
`PS->getNodes()` (whose entries may be null, modelled by `Option`), and the
root returned by `PS->getRoot()`. -/
structure PointerSubgraph : Type where
  arena : List (Ptr × PSNodeData)
  nodes : List (Option Ptr)
  root : Ptr
deriving DecidableEq, Repr

/-- Dereference a node pointer through the subgraph's arena. -/
def PointerSubgraph.deref (g : PointerSubgraph) (p : Ptr) : PSNodeData :=
  (g.arena.lookup p).getD defaultPSNode

/-- Modelled from the spec: the distinguished sentinel `NULLPTR`
(`NULL_ADDRESS`), a reserved node identity. -/
def NULLPTR : Ptr := 0

/-- Modelled from the spec: the distinguished sentinel `UNKNOWN_MEMORY`,
a reserved node identity. -/
def UNKNOWN_MEMORY : Ptr := 1

/-- Modelled from the spec: the distinguished sentinel `INVALIDATED`
(`INVALIDATED_MEMORY`), a reserved node identity. -/
def INVALIDATED : Ptr := 2

/-- `nd->getSuccessors()` seen through the arena. -/
def succsOf (g : PointerSubgraph) (p : Ptr) : List Ptr :=
  (g.deref p).successors

/-- Category of a diagnostic entry: one per `report*` function of the
source (`reportInvalOperands`, `reportInvalEdges`, `reportInvalNode`,
`reportUnreachableNode`). -/
inductive DiagKind : Type
  | invalOperands
  | invalEdges
  | invalNode
  | unreachableNode
deriving DecidableEq, Repr

/-- One accumulated diagnostic entry: its category, the node it reports,
and the free-form `user_err` explanation string (empty for
`reportUnreachableNode`, which takes none). -/
structure Diag : Type where
  kind : DiagKind
  node : Ptr
  msg : String
deriving DecidableEq, Repr

/-- Body of the operand-listing loop of `dumpNode`: each operand's ID and
kind, comma-separated (the source emits `id ++ " " ++ kind` and a comma
after every operand but the last). -/
def dumpOps (g : PointerSubgraph) : List Ptr → String
  | [] => ""
  | [op] => toString (g.deref op).id ++ " " ++ psNodeTypeToCString (g.deref op).type
  | op :: rest =>
      toString (g.deref op).id ++ " " ++ psNodeTypeToCString (g.deref op).type ++ ", " ++
        dumpOps g rest

/-- `dumpNode`: the text appended for one node (kind, ID, operand list). -/
def dumpNode (g : PointerSubgraph) (p : Ptr) : String :=
  psNodeTypeToCString (g.deref p).type ++ " with ID " ++ toString (g.deref p).id ++
    "\n  - operands: [" ++ dumpOps g (g.deref p).operands ++ "]\n"

/-- Rendering of one diagnostic entry as the text the corresponding
`report*` function appends to `errors`. -/
def renderDiag (g : PointerSubgraph) (d : Diag) : String :=
  match d.kind with
  | DiagKind.invalOperands =>
      "Invalid operands:\n" ++ dumpNode g d.node ++
        (if d.msg = "" then "" else "(" ++ d.msg ++ ")\n")
  | DiagKind.invalEdges =>
      "Invalid number of edges:\n" ++ dumpNode g d.node ++
        (if d.msg = "" then "" else "(" ++ d.msg ++ ")\n")
  | DiagKind.invalNode =>
      "Invalid node:\n" ++ dumpNode g d.node ++
        (if d.msg = "" then "" else "(" ++ d.msg ++ ")\n")
  | DiagKind.unreachableNode =>
      "Unreachable node:\n" ++ dumpNode g d.node

/-- Linear membership scan over a pointer list (the loop inside
`isInPredecessors`). -/
def memPtr (nd : Ptr) : List Ptr → Bool
  | [] => false
  | p :: rest => if p = nd then true else memPtr nd rest

/-- Loop of `hasDuplicateOperand`: insert each operand into a set, fail on
the first operand already present. -/
def hasDuplicateOperandGo (seen : List Ptr) : List Ptr → Bool
  | [] => false
  | op :: rest => if op ∈ seen then true else hasDuplicateOperandGo (op :: seen) rest

/-- `hasDuplicateOperand`: does the node carry the same operand twice? -/
def hasDuplicateOperand (g : PointerSubgraph) (nd : Ptr) : Bool :=
  hasDuplicateOperandGo [] (g.deref nd).operands

/-- First loop of `checkOperands`: build the set of known (non-null) node
pointers and report every node already present when inserted ("Node
multiple times in the graph").  Returns the known set, the invalid flag
contribution, and the appended diagnostics in order. -/
def knownNodesLoop : List (Option Ptr) → List Ptr → List Ptr × Bool × List Diag
  | [], known => (known, false, [])
  | none :: rest, known => knownNodesLoop rest known
  | some nd :: rest, known =>
      if nd ∈ known then
        let r := knownNodesLoop rest known
        (r.1, true, Diag.mk DiagKind.invalNode nd "Node multiple times in the graph" :: r.2.2)
      else
        knownNodesLoop rest (nd :: known)

/-- Operand loop of the second pass of `checkOperands`: any operand that is
none of the three sentinels and not in the known set is reported as a
(maybe dangling) unknown operand. -/
def checkUnknownOperands (known : List Ptr) (nd : Ptr) : List Ptr → Bool × List Diag
  | [] => (false, [])
  | op :: rest =>
      let r := checkUnknownOperands known nd rest
      if ¬op = NULLPTR ∧ ¬op = UNKNOWN_MEMORY ∧ ¬op = INVALIDATED ∧ ¬op ∈ known then
        (true, Diag.mk DiagKind.invalOperands nd "Node has unknown (maybe dangling) operand" :: r.2)
      else
        r

/-- Arity switch of `checkOperands` for one node (`switch (nd->getType())`
of the source, with the same case grouping and messages). -/
def checkArityNode (g : PointerSubgraph) (nd : Ptr) : Bool × List Diag :=
  match (g.deref nd).type with
  | PSNodeType.PHI =>
      if (g.deref nd).operands.length = 0 then
        (true, [Diag.mk DiagKind.invalOperands nd "Empty PHI"])
      else if hasDuplicateOperand g nd = true then
        (true, [Diag.mk DiagKind.invalOperands nd "PHI Node contains duplicated operand"])
      else (false, [])
  | PSNodeType.NULL_ADDR | PSNodeType.UNKNOWN_MEM | PSNodeType.NOOP | PSNodeType.FUNCTION =>
      if ¬(g.deref nd).operands.length = 0 then
        (true, [Diag.mk DiagKind.invalOperands nd "Should not have an operand"])
      else (false, [])
  | PSNodeType.GEP | PSNodeType.LOAD | PSNodeType.CAST | PSNodeType.INVALIDATE_OBJECT
  | PSNodeType.CONSTANT | PSNodeType.FREE =>
      if ¬(g.deref nd).operands.length = 1 then
        (true, [Diag.mk DiagKind.invalOperands nd "Should have exactly one operand"])
      else (false, [])
  | PSNodeType.STORE | PSNodeType.MEMCPY =>
      if ¬(g.deref nd).operands.length = 2 then
        (true, [Diag.mk DiagKind.invalOperands nd "Should have exactly two operands"])
      else (false, [])

/-- Second loop of `checkOperands`: per non-null node, the unknown-operand
loop followed by the arity switch; null entries are skipped. -/
def checkOperandsNodes (g : PointerSubgraph) (known : List Ptr) :
    List (Option Ptr) → Bool × List Diag
  | [] => (false, [])
  | none :: rest => checkOperandsNodes g known rest
  | some nd :: rest =>
      let a := checkUnknownOperands known nd (g.deref nd).operands
      let b := checkArityNode g nd
      let c := checkOperandsNodes g known rest
      (a.1 || (b.1 || c.1), a.2 ++ (b.2 ++ c.2))

/-- `PointerSubgraphValidator::checkOperands`: both loops in order, ORing
the invalid flags and accumulating diagnostics in emission order. -/
def checkOperands (g : PointerSubgraph) : Bool × List Diag :=
  let k := knownNodesLoop g.nodes []
  let r := checkOperandsNodes g k.1 g.nodes
  (k.2.1 || r.1, k.2.2 ++ r.2)

/-- `isInPredecessors`: is `nd` among the predecessors of `of`? -/
def isInPredecessors (g : PointerSubgraph) (nd of : Ptr) : Bool :=
  memPtr nd (g.deref of).predecessors

/-- `canBeOutsideGraph`: the four kinds permitted to live outside the
normal control flow of the graph. -/
def canBeOutsideGraph (g : PointerSubgraph) (nd : Ptr) : Bool :=
  match (g.deref nd).type with
  | PSNodeType.FUNCTION | PSNodeType.CONSTANT
  | PSNodeType.UNKNOWN_MEM | PSNodeType.NULL_ADDR => true
  | _ => false

/-- Inner loop of `reachableNodes`: insert each successor of the current
node into the reachable set; successors not previously present are also
appended to the next worklist level. -/
def processSuccs (g : PointerSubgraph) (reachable acc : List Ptr) :
    List Ptr → List Ptr × List Ptr
  | [] => (reachable, acc)
  | s :: rest =>
      if s ∈ reachable then processSuccs g reachable acc rest
      else processSuccs g (s :: reachable) (acc ++ [s]) rest

/-- Middle loop of `reachableNodes`: expand every node of the current
worklist level. -/
def processLevel (g : PointerSubgraph) :
    List Ptr → List Ptr → List Ptr → List Ptr × List Ptr
  | [], reachable, acc => (reachable, acc)
  | cur :: rest, reachable, acc =>
      let r := processSuccs g reachable acc (succsOf g cur)
      processLevel g rest r.1 r.2

/-- Outer `while` loop of `reachableNodes`, made structurally recursive on
an explicit fuel; the source loop runs until the worklist level is empty,
which the fuel bound provably reaches (see the stabilisation theorem). -/
def bfsLoop (g : PointerSubgraph) : Nat → List Ptr → List Ptr → List Ptr
  | 0, reachable, _ => reachable
  | fuel + 1, reachable, toProcess =>
      if toProcess.isEmpty then reachable
      else
        let r := processLevel g toProcess reachable []
        bfsLoop g fuel r.1 r.2

/-- All pointers the traversal can ever insert: the start node plus every
successor entry stored anywhere in the arena. -/
def bfsUniverse (g : PointerSubgraph) (start : Ptr) : List Ptr :=
  start :: (g.arena.map fun e => e.2.successors).flatten

/-- `reachableNodes`: breadth-first closure of the successor relation from
`nd`, starting from the singleton reachable set and worklist `{nd}`, with
enough fuel for the worklist loop to empty out. -/
def reachableNodes (g : PointerSubgraph) (nd : Ptr) : List Ptr :=
  bfsLoop g ((bfsUniverse g nd).length + 1) [nd] [nd]

/-- Successor loop of `checkEdges` for one node: every successor that does
not list the node back as a predecessor is reported. -/
def checkSuccEdges (g : PointerSubgraph) (nd : Ptr) : List Ptr → Bool × List Diag
  | [] => (false, [])
  | s :: rest =>
      let r := checkSuccEdges g nd rest
      if isInPredecessors g nd s = true then r
      else
        (true, Diag.mk DiagKind.invalEdges nd
          "Node not set as a predecessor of some of its successors" :: r.2)

/-- First loop of `checkEdges`: per non-null node, the missing-predecessor
check (root and outside-graph kinds exempt) followed by the
successor-symmetry loop. -/
def checkEdgesNodes (g : PointerSubgraph) : List (Option Ptr) → Bool × List Diag
  | [] => (false, [])
  | none :: rest => checkEdgesNodes g rest
  | some nd :: rest =>
      let p : Bool × List Diag :=
        if (g.deref nd).predecessors.length = 0 ∧ ¬nd = g.root ∧
            ¬canBeOutsideGraph g nd = true then
          (true, [Diag.mk DiagKind.invalEdges nd "Non-root node has no predecessors"])
        else (false, [])
      let s := checkSuccEdges g nd (succsOf g nd)
      let r := checkEdgesNodes g rest
      (p.1 || (s.1 || r.1), p.2 ++ (s.2 ++ r.2))

/-- Second loop of `checkEdges`: every non-null node absent from the
reachable set is reported unreachable unless its kind may live outside the
graph. -/
def checkUnreachable (g : PointerSubgraph) (reachable : List Ptr) :
    List (Option Ptr) → Bool × List Diag
  | [] => (false, [])
  | none :: rest => checkUnreachable g reachable rest
  | some nd :: rest =>
      let r := checkUnreachable g reachable rest
      if ¬nd ∈ reachable ∧ ¬canBeOutsideGraph g nd = true then
        (true, Diag.mk DiagKind.unreachableNode nd "" :: r.2)
      else r

/-- `PointerSubgraphValidator::checkEdges`: the edge loop over all nodes
followed by the reachability sweep from the root. -/
def checkEdges (g : PointerSubgraph) : Bool × List Diag :=
  let a := checkEdgesNodes g g.nodes
  let b := checkUnreachable g (reachableNodes g g.root) g.nodes
  (a.1 || b.1, a.2 ++ b.2)

/-- `PointerSubgraphValidator::validate`: run both passes unconditionally
and OR their findings; diagnostics of both passes accumulate in order. -/
def validate (g : PointerSubgraph) : Bool × List Diag :=
  let a := checkOperands g
  let b := checkEdges g
  (a.1 || b.1, a.2 ++ b.2)

/-- The accumulated `errors()` text of one fresh `validate()` call. -/
def errorsString (g : PointerSubgraph) : String :=
  String.join (((validate g).2).map (renderDiag g))

/-- The validator object: the subgraph under scrutiny and the accumulated
diagnostics member. -/
structure Validator : Type where
  PS : PointerSubgraph
  errors : List Diag
deriving DecidableEq, Repr

/-- The `validate()` method on the validator object: appends this call's
diagnostics to the member and returns the verdict; the subgraph itself is
only read. -/
def validatorValidate (v : Validator) : Bool × Validator :=
  let r := validate v.PS
  (r.1, Validator.mk v.PS (v.errors ++ r.2))

/-- Modelled from the spec: the node set of the graph, the non-null
entries of the node sequence. -/
def nodeMembers (g : PointerSubgraph) : List Ptr :=
  g.nodes.filterMap id

/-- Modelled from the spec: the kinds §3 allows to exist outside normal
control flow. -/
def specExemptKind (t : PSNodeType) : Prop :=
  t = PSNodeType.FUNCTION ∨ t = PSNodeType.CONSTANT ∨
    t = PSNodeType.UNKNOWN_MEM ∨ t = PSNodeType.NULL_ADDR

/-- Modelled from the spec: the arity-per-kind contract of the §4.2 table
(PHI: at least one operand, pairwise distinct; NULL_ADDR, UNKNOWN_MEM,
NOOP, FUNCTION: none; GEP, LOAD, CAST, INVALIDATE_OBJECT, CONSTANT, FREE:
exactly one; STORE, MEMCPY: exactly two). -/
def arityOk (d : PSNodeData) : Prop :=
  match d.type with
  | PSNodeType.PHI => d.operands ≠ [] ∧ d.operands.Nodup
  | PSNodeType.NULL_ADDR | PSNodeType.UNKNOWN_MEM | PSNodeType.NOOP
  | PSNodeType.FUNCTION => d.operands.length = 0
  | PSNodeType.GEP | PSNodeType.LOAD | PSNodeType.CAST | PSNodeType.INVALIDATE_OBJECT
  | PSNodeType.CONSTANT | PSNodeType.FREE => d.operands.length = 1
  | PSNodeType.STORE | PSNodeType.MEMCPY => d.operands.length = 2

/-- Modelled from the spec: reachability from `a` to `b` by following
successor edges (zero or more steps). -/
def ReachableFrom (g : PointerSubgraph) (a b : Ptr) : Prop :=
  Relation.ReflTransGen (fun x y => y ∈ succsOf g x) a b

/-- Modelled from the spec: the five structural invariants of §3 that make
a pointer subgraph valid (uniqueness, operand referential integrity,
arity-per-kind, edge symmetry, connectivity). -/
def ValidGraph (g : PointerSubgraph) : Prop :=
  (nodeMembers g).Nodup ∧
  (∀ nd ∈ nodeMembers g, ∀ op ∈ (g.deref nd).operands,
      op = NULLPTR ∨ op = UNKNOWN_MEMORY ∨ op = INVALIDATED ∨ op ∈ nodeMembers g) ∧
  (∀ nd ∈ nodeMembers g, arityOk (g.deref nd)) ∧
  (∀ nd ∈ nodeMembers g, ∀ s ∈ succsOf g nd, nd ∈ (g.deref s).predecessors) ∧
  (∀ nd ∈ nodeMembers g, ¬nd = g.root → ¬specExemptKind (g.deref nd).type →
      (g.deref nd).predecessors ≠ [] ∧ ReachableFrom g g.root nd)

/-- Invariant carried by the breadth-first loop: the reachable set is
duplicate-free, contained in the pointer universe, contains the current
worklist level, and is successor-closed except possibly at worklist
members. -/
def BfsInv (g : PointerSubgraph) (U r tp : List Ptr) : Prop :=
  r.Nodup ∧ r ⊆ U ∧ tp ⊆ r ∧
    ∀ x ∈ r, x ∈ tp ∨ ∀ s ∈ succsOf g x, s ∈ r

/-- Concrete example: a well-formed single-node graph (the root, a NOOP). -/
def exValid : PointerSubgraph :=
  PointerSubgraph.mk [(10, PSNodeData.mk 1 PSNodeType.NOOP [] [] [])] [some 10] 10

/-- Concrete example: a PHI node with an empty operand list. -/
def exPhi : PointerSubgraph :=
  PointerSubgraph.mk
    [(10, PSNodeData.mk 1 PSNodeType.NOOP [] [] [11]),
     (11, PSNodeData.mk 2 PSNodeType.PHI [] [10] [])]
    [some 10, some 11] 10

/-- Concrete example: a LOAD whose only operand dangles (pointer 99 is not
a sentinel and not in the node set). -/
def exDangling : PointerSubgraph :=
  PointerSubgraph.mk [(10, PSNodeData.mk 1 PSNodeType.LOAD [99] [] [])] [some 10] 10

/-- Concrete example: an asymmetric edge (10 lists 11 as successor, 11
does not list 10 back as a predecessor). -/
def exAsym : PointerSubgraph :=
  PointerSubgraph.mk
    [(10, PSNodeData.mk 1 PSNodeType.NOOP [] [] [11]),
     (11, PSNodeData.mk 2 PSNodeType.NOOP [] [] [])]
    [some 10, some 11] 10

/-- Concrete example: node 20 (NOOP) has no predecessors and no path from
the root; node 21 (FUNCTION) is likewise disconnected but of an exempt
kind. -/
def exConn : PointerSubgraph :=
  PointerSubgraph.mk
    [(10, PSNodeData.mk 1 PSNodeType.NOOP [] [] []),
     (20, PSNodeData.mk 2 PSNodeType.NOOP [] [] []),
     (21, PSNodeData.mk 3 PSNodeType.FUNCTION [] [] [])]
    [some 10, some 20, some 21] 10

/-- Concrete example: the same node object listed twice in the node
sequence. -/
def exDup : PointerSubgraph :=
  PointerSubgraph.mk [(10, PSNodeData.mk 1 PSNodeType.NOOP [] [] [])]
    [some 10, some 10] 10

/-- Concrete example: a two-node successor cycle between 10 and 11. -/
def exCycle : PointerSubgraph :=
  PointerSubgraph.mk
    [(10, PSNodeData.mk 1 PSNodeType.NOOP [] [11] [11]),
     (11, PSNodeData.mk 2 PSNodeType.NOOP [] [10] [10])]
    [some 10, some 11] 10

theorem memPtr_iff (nd : Ptr) : ∀ l : List Ptr, memPtr nd l = true ↔ nd ∈ l := by
  intro l
  induction l with
  | nil => simp [memPtr]
  | cons p rest ih =>
    by_cases h : p = nd
    · subst h
      simp [memPtr]
    · simp [memPtr, h, ih]
      intro hx
      exact absurd hx.symm h

theorem hasDuplicateOperandGo_eq_false :
    ∀ (ops seen : List Ptr),
      hasDuplicateOperandGo seen ops = false ↔ ops.Nodup ∧ ∀ x ∈ ops, x ∉ seen := by
  intro ops
  induction ops with
  | nil => intro seen; simp [hasDuplicateOperandGo]
  | cons op rest ih =>
    intro seen
    by_cases h : op ∈ seen
    · simp only [hasDuplicateOperandGo, if_pos h]
      constructor
      · intro hfalse
        simp at hfalse
      · rintro ⟨_, hall⟩
        exact absurd h (hall op (List.mem_cons_self _ _))
    · simp only [hasDuplicateOperandGo, if_neg h]
      rw [ih (op :: seen)]
      constructor
      · rintro ⟨hnd, hall⟩
        constructor
        · rw [List.nodup_cons]
          exact ⟨fun hm => hall op hm (List.mem_cons_self _ _), hnd⟩
        · intro x hx
          rcases List.mem_cons.mp hx with rfl | hx2
          · exact h
          · intro hs
            exact hall x hx2 (List.mem_cons_of_mem _ hs)
      · rintro ⟨hnd, hall⟩
        rw [List.nodup_cons] at hnd
        refine ⟨hnd.2, ?_⟩
        intro x hx hs
        rcases List.mem_cons.mp hs with rfl | hs2
        · exact hnd.1 hx
        · exact hall x (List.mem_cons_of_mem _ hx) hs2

theorem hasDuplicateOperand_iff (g : PointerSubgraph) (nd : Ptr) :
    hasDuplicateOperand g nd = true ↔ ¬(g.deref nd).operands.Nodup := by
  rw [← Bool.not_eq_false, not_iff_not, hasDuplicateOperand, hasDuplicateOperandGo_eq_false]
  simp

theorem mem_nodeMembers_iff (g : PointerSubgraph) (x : Ptr) :
    x ∈ nodeMembers g ↔ some x ∈ g.nodes := by
  simp [nodeMembers, List.mem_filterMap]

theorem knownNodesLoop_fst_mem (x : Ptr) :
    ∀ (nodes : List (Option Ptr)) (known : List Ptr),
      x ∈ (knownNodesLoop nodes known).1 ↔ x ∈ known ∨ some x ∈ nodes := by
  intro nodes
  induction nodes with
  | nil => intro known; simp [knownNodesLoop]
  | cons o rest ih =>
    intro known
    match o with
    | none => simp [knownNodesLoop, ih]
    | some nd =>
      by_cases h : nd ∈ known
      · simp only [knownNodesLoop, if_pos h, ih, List.mem_cons, Option.some.injEq]
        constructor
        · rintro (hk | hr)
          · exact Or.inl hk
          · exact Or.inr (Or.inr hr)
        · rintro (hk | rfl | hr)
          · exact Or.inl hk
          · exact Or.inl h
          · exact Or.inr hr
      · simp only [knownNodesLoop, if_neg h, ih, List.mem_cons, Option.some.injEq]
        tauto

theorem knownNodesLoop_diag_shape :
    ∀ (nodes : List (Option Ptr)) (known : List Ptr) (d : Diag),
      d ∈ (knownNodesLoop nodes known).2.2 →
        d.kind = DiagKind.invalNode ∧ d.msg = "Node multiple times in the graph" := by
  intro nodes
  induction nodes with
  | nil => intro known d hd; simp [knownNodesLoop] at hd
  | cons o rest ih =>
    intro known d hd
    match o with
    | none =>
      exact ih known d (by simpa [knownNodesLoop] using hd)
    | some nd =>
      by_cases h : nd ∈ known
      · simp only [knownNodesLoop, if_pos h, List.mem_cons] at hd
        rcases hd with rfl | hd
        · exact ⟨rfl, rfl⟩
        · exact ih known d hd
      · exact ih (nd :: known) d (by simpa [knownNodesLoop, if_neg h] using hd)

theorem knownNodesLoop_nodup :
    ∀ (nodes : List (Option Ptr)) (known : List Ptr),
      (nodes.filterMap id).Nodup → (∀ x ∈ known, ¬some x ∈ nodes) →
        (knownNodesLoop nodes known).2 = (false, []) := by
  intro nodes
  induction nodes with
  | nil => intro known _ _; simp [knownNodesLoop]
  | cons o rest ih =>
    intro known hnd hdis
    match o with
    | none =>
      simp only [knownNodesLoop]
      refine ih known (by simpa using hnd) ?_
      intro x hx hmem
      exact hdis x hx (List.mem_cons_of_mem _ hmem)
    | some nd =>
      have h : ¬nd ∈ known := by
        intro h
        exact hdis nd h (List.mem_cons_self _ _)
      simp only [knownNodesLoop, if_neg h]
      have hsplit : ¬some nd ∈ rest ∧ (rest.filterMap id).Nodup := by
        simpa using hnd
      refine ih (nd :: known) hsplit.2 ?_
      intro x hx hmem
      rcases List.mem_cons.mp hx with rfl | hx
      · exact hsplit.1 hmem
      · exact hdis x hx (List.mem_cons_of_mem _ hmem)

theorem knownNodesLoop_mem_known :
    ∀ (nodes : List (Option Ptr)) (known : List Ptr) (nd : Ptr),
      nd ∈ known → some nd ∈ nodes →
        Diag.mk DiagKind.invalNode nd "Node multiple times in the graph"
          ∈ (knownNodesLoop nodes known).2.2 := by
  intro nodes
  induction nodes with
  | nil => intro known nd _ hmem; simp at hmem
  | cons o rest ih =>
    intro known nd hk hmem
    match o with
    | none =>
      simp only [knownNodesLoop]
      rcases List.mem_cons.mp hmem with h | h
      · exact absurd h (by simp)
      · exact ih known nd hk h
    | some m =>
      by_cases h : m ∈ known
      · simp only [knownNodesLoop, if_pos h]
        rcases List.mem_cons.mp hmem with heq | hmem2
        · have : nd = m := by simpa using heq
          subst this
          exact List.mem_cons_self _ _
        · exact List.mem_cons_of_mem _ (ih known nd hk hmem2)
      · simp only [knownNodesLoop, if_neg h]
        rcases List.mem_cons.mp hmem with heq | hmem2
        · have : nd = m := by simpa using heq
          subst this
          exact absurd hk h
        · exact ih (m :: known) nd (List.mem_cons_of_mem _ hk) hmem2

theorem knownNodesLoop_duplicate :
    ∀ (nodes : List (Option Ptr)) (known : List Ptr) (nd : Ptr),
      List.Duplicate (some nd) nodes →
        Diag.mk DiagKind.invalNode nd "Node multiple times in the graph"
          ∈ (knownNodesLoop nodes known).2.2 := by
  intro nodes known nd hdup
  induction hdup generalizing known with
  | cons_mem hmem =>
    by_cases h : nd ∈ known
    · simp only [knownNodesLoop, if_pos h]
      exact List.mem_cons_self _ _
    · simp only [knownNodesLoop, if_neg h]
      exact knownNodesLoop_mem_known _ _ _ (List.mem_cons_self _ _) hmem
  | cons_duplicate hdup ih =>
    rename_i y rest
    match y with
    | none =>
      simpa only [knownNodesLoop] using ih known
    | some m =>
      by_cases h : m ∈ known
      · simp only [knownNodesLoop, if_pos h]
        exact List.mem_cons_of_mem _ (ih known)
      · simp only [knownNodesLoop, if_neg h]
        exact ih (m :: known)

theorem knownNodesLoop_true_iff :
    ∀ (nodes : List (Option Ptr)) (known : List Ptr),
      (knownNodesLoop nodes known).2.1 = true ↔ (knownNodesLoop nodes known).2.2 ≠ [] := by
  intro nodes
  induction nodes with
  | nil => intro known; simp [knownNodesLoop]
  | cons o rest ih =>
    intro known
    match o with
    | none => simpa only [knownNodesLoop] using ih known
    | some nd =>
      by_cases h : nd ∈ known
      · simp [knownNodesLoop, if_pos h]
      · simpa only [knownNodesLoop, if_neg h] using ih (nd :: known)

theorem checkUnknownOperands_shape (known : List Ptr) (nd : Ptr) :
    ∀ (ops : List Ptr) (d : Diag), d ∈ (checkUnknownOperands known nd ops).2 →
      d = Diag.mk DiagKind.invalOperands nd "Node has unknown (maybe dangling) operand" := by
  intro ops
  induction ops with
  | nil => intro d hd; simp [checkUnknownOperands] at hd
  | cons op rest ih =>
    intro d hd
    by_cases h : ¬op = NULLPTR ∧ ¬op = UNKNOWN_MEMORY ∧ ¬op = INVALIDATED ∧ ¬op ∈ known
    · simp only [checkUnknownOperands, if_pos h] at hd
      rcases List.mem_cons.mp hd with rfl | hd2
      · rfl
      · exact ih d hd2
    · simp only [checkUnknownOperands, if_neg h] at hd
      exact ih d hd

theorem checkUnknownOperands_mem (known : List Ptr) (nd : Ptr) :
    ∀ (ops : List Ptr) (op : Ptr), op ∈ ops →
      ¬op = NULLPTR → ¬op = UNKNOWN_MEMORY → ¬op = INVALIDATED → ¬op ∈ known →
      Diag.mk DiagKind.invalOperands nd "Node has unknown (maybe dangling) operand"
        ∈ (checkUnknownOperands known nd ops).2 := by
  intro ops
  induction ops with
  | nil => intro op hop; simp at hop
  | cons o rest ih =>
    intro op hop h1 h2 h3 h4
    by_cases h : ¬o = NULLPTR ∧ ¬o = UNKNOWN_MEMORY ∧ ¬o = INVALIDATED ∧ ¬o ∈ known
    · simp only [checkUnknownOperands, if_pos h]
      exact List.mem_cons_self _ _
    · simp only [checkUnknownOperands, if_neg h]
      rcases List.mem_cons.mp hop with rfl | hop2
      · exact absurd ⟨h1, h2, h3, h4⟩ h
      · exact ih op hop2 h1 h2 h3 h4

theorem checkUnknownOperands_length (known : List Ptr) (nd : Ptr) :
    ∀ ops : List Ptr,
      (checkUnknownOperands known nd ops).2.length =
        ops.countP (fun o =>
          decide (¬o = NULLPTR ∧ ¬o = UNKNOWN_MEMORY ∧ ¬o = INVALIDATED ∧ ¬o ∈ known)) := by
  intro ops
  induction ops with
  | nil => simp [checkUnknownOperands]
  | cons op rest ih =>
    by_cases h : ¬op = NULLPTR ∧ ¬op = UNKNOWN_MEMORY ∧ ¬op = INVALIDATED ∧ ¬op ∈ known
    · simp [checkUnknownOperands, if_pos h, List.countP_cons, h, ih]
    · simp [checkUnknownOperands, if_neg h, List.countP_cons, h, ih]

theorem checkUnknownOperands_none (known : List Ptr) (nd : Ptr) :
    ∀ ops : List Ptr,
      (∀ op ∈ ops, op = NULLPTR ∨ op = UNKNOWN_MEMORY ∨ op = INVALIDATED ∨ op ∈ known) →
      checkUnknownOperands known nd ops = (false, []) := by
  intro ops
  induction ops with
  | nil => intro _; simp [checkUnknownOperands]
  | cons op rest ih =>
    intro hall
    have h : ¬(¬op = NULLPTR ∧ ¬op = UNKNOWN_MEMORY ∧ ¬op = INVALIDATED ∧ ¬op ∈ known) := by
      rcases hall op (List.mem_cons_self _ _) with h | h | h | h <;> tauto
    simp only [checkUnknownOperands, if_neg h]
    exact ih fun op hop => hall op (List.mem_cons_of_mem _ hop)

theorem checkUnknownOperands_true_iff (known : List Ptr) (nd : Ptr) :
    ∀ ops : List Ptr,
      (checkUnknownOperands known nd ops).1 = true ↔ (checkUnknownOperands known nd ops).2 ≠ [] := by
  intro ops
  induction ops with
  | nil => simp [checkUnknownOperands]
  | cons op rest ih =>
    by_cases h : ¬op = NULLPTR ∧ ¬op = UNKNOWN_MEMORY ∧ ¬op = INVALIDATED ∧ ¬op ∈ known
    · simp [checkUnknownOperands, if_pos h]
    · simp only [checkUnknownOperands, if_neg h]
      exact ih

theorem checkArityNode_shape (g : PointerSubgraph) (nd : Ptr) (d : Diag) :
    d ∈ (checkArityNode g nd).2 →
      d.kind = DiagKind.invalOperands ∧ d.node = nd ∧
        d.msg ∈ ["Empty PHI", "PHI Node contains duplicated operand",
          "Should not have an operand", "Should have exactly one operand",
          "Should have exactly two operands"] := by
  intro hd
  unfold checkArityNode at hd
  split at hd <;> (repeat' split at hd) <;> simp_all

theorem checkArityNode_arityOk (g : PointerSubgraph) (nd : Ptr)
    (h : arityOk (g.deref nd)) : checkArityNode g nd = (false, []) := by
  rcases htype : (g.deref nd).type <;>
    simp only [checkArityNode, arityOk, htype] at h ⊢ <;>
    simp [h, hasDuplicateOperand_iff]

theorem checkArityNode_phi_empty (g : PointerSubgraph) (nd : Ptr)
    (ht : (g.deref nd).type = PSNodeType.PHI) (hops : (g.deref nd).operands = []) :
    checkArityNode g nd = (true, [Diag.mk DiagKind.invalOperands nd "Empty PHI"]) := by
  simp [checkArityNode, ht, hops]

theorem checkArityNode_phi_dup (g : PointerSubgraph) (nd : Ptr)
    (ht : (g.deref nd).type = PSNodeType.PHI) (hdup : ¬(g.deref nd).operands.Nodup) :
    checkArityNode g nd =
      (true, [Diag.mk DiagKind.invalOperands nd "PHI Node contains duplicated operand"]) := by
  have hne : ¬(g.deref nd).operands.length = 0 := by
    intro h0
    rw [List.length_eq_zero] at h0
    rw [h0] at hdup
    exact hdup List.nodup_nil
  have hd : hasDuplicateOperand g nd = true := (hasDuplicateOperand_iff g nd).mpr hdup
  simp [checkArityNode, ht, hne, hd]

theorem checkArityNode_zero (g : PointerSubgraph) (nd : Ptr)
    (ht : (g.deref nd).type = PSNodeType.NULL_ADDR ∨ (g.deref nd).type = PSNodeType.UNKNOWN_MEM ∨
      (g.deref nd).type = PSNodeType.NOOP ∨ (g.deref nd).type = PSNodeType.FUNCTION)
    (hlen : ¬(g.deref nd).operands.length = 0) :
    checkArityNode g nd =
      (true, [Diag.mk DiagKind.invalOperands nd "Should not have an operand"]) := by
  rcases ht with ht | ht | ht | ht <;> simp [checkArityNode, ht, hlen]

theorem checkArityNode_one (g : PointerSubgraph) (nd : Ptr)
    (ht : (g.deref nd).type = PSNodeType.GEP ∨ (g.deref nd).type = PSNodeType.LOAD ∨
      (g.deref nd).type = PSNodeType.CAST ∨ (g.deref nd).type = PSNodeType.INVALIDATE_OBJECT ∨
      (g.deref nd).type = PSNodeType.CONSTANT ∨ (g.deref nd).type = PSNodeType.FREE)
    (hlen : ¬(g.deref nd).operands.length = 1) :
    checkArityNode g nd =
      (true, [Diag.mk DiagKind.invalOperands nd "Should have exactly one operand"]) := by
  rcases ht with ht | ht | ht | ht | ht | ht <;> simp [checkArityNode, ht, hlen]

theorem checkArityNode_two (g : PointerSubgraph) (nd : Ptr)
    (ht : (g.deref nd).type = PSNodeType.STORE ∨ (g.deref nd).type = PSNodeType.MEMCPY)
    (hlen : ¬(g.deref nd).operands.length = 2) :
    checkArityNode g nd =
      (true, [Diag.mk DiagKind.invalOperands nd "Should have exactly two operands"]) := by
  rcases ht with ht | ht <;> simp [checkArityNode, ht, hlen]

theorem checkArityNode_true_iff (g : PointerSubgraph) (nd : Ptr) :
    (checkArityNode g nd).1 = true ↔ (checkArityNode g nd).2 ≠ [] := by
  unfold checkArityNode
  split <;> (repeat' split) <;> simp

theorem checkOperandsNodes_mem_intro (g : PointerSubgraph) (known : List Ptr) :
    ∀ (nodes : List (Option Ptr)) (nd : Ptr) (d : Diag), some nd ∈ nodes →
      (d ∈ (checkUnknownOperands known nd (g.deref nd).operands).2 ∨
        d ∈ (checkArityNode g nd).2) →
      d ∈ (checkOperandsNodes g known nodes).2 := by
  intro nodes
  induction nodes with
  | nil => intro nd d h; simp at h
  | cons o rest ih =>
    intro nd d hmem hd
    match o with
    | none =>
      simp only [checkOperandsNodes]
      refine ih nd d ?_ hd
      rcases List.mem_cons.mp hmem with h | h
      · exact absurd h (by simp)
      · exact h
    | some m =>
      simp only [checkOperandsNodes, List.mem_append]
      rcases List.mem_cons.mp hmem with heq | hmem2
      · have : nd = m := by simpa using heq
        subst this
        rcases hd with hd | hd
        · exact Or.inl hd
        · exact Or.inr (Or.inl hd)
      · exact Or.inr (Or.inr (ih nd d hmem2 hd))

theorem checkOperandsNodes_mem_elim (g : PointerSubgraph) (known : List Ptr) :
    ∀ (nodes : List (Option Ptr)) (d : Diag), d ∈ (checkOperandsNodes g known nodes).2 →
      ∃ nd, some nd ∈ nodes ∧
        (d ∈ (checkUnknownOperands known nd (g.deref nd).operands).2 ∨
          d ∈ (checkArityNode g nd).2) := by
  intro nodes
  induction nodes with
  | nil => intro d hd; simp [checkOperandsNodes] at hd
  | cons o rest ih =>
    intro d hd
    match o with
    | none =>
      obtain ⟨nd, h1, h2⟩ := ih d (by simpa only [checkOperandsNodes] using hd)
      exact ⟨nd, List.mem_cons_of_mem _ h1, h2⟩
    | some m =>
      simp only [checkOperandsNodes, List.mem_append] at hd
      rcases hd with hd | hd | hd
      · exact ⟨m, List.mem_cons_self _ _, Or.inl hd⟩
      · exact ⟨m, List.mem_cons_self _ _, Or.inr hd⟩
      · obtain ⟨nd, h1, h2⟩ := ih d hd
        exact ⟨nd, List.mem_cons_of_mem _ h1, h2⟩

theorem checkOperandsNodes_true_iff (g : PointerSubgraph) (known : List Ptr) :
    ∀ nodes : List (Option Ptr),
      (checkOperandsNodes g known nodes).1 = true ↔ (checkOperandsNodes g known nodes).2 ≠ [] := by
  intro nodes
  induction nodes with
  | nil => simp [checkOperandsNodes]
  | cons o rest ih =>
    match o with
    | none => simpa only [checkOperandsNodes] using ih
    | some m =>
      have ha := checkUnknownOperands_true_iff known m (g.deref m).operands
      have hb := checkArityNode_true_iff g m
      simp only [checkOperandsNodes, Bool.or_eq_true, ha, hb, ih, ne_eq, List.append_eq_nil,
        not_and]
      tauto

theorem checkOperandsNodes_none (g : PointerSubgraph) (known : List Ptr) :
    ∀ nodes : List (Option Ptr),
      (∀ nd, some nd ∈ nodes →
        checkUnknownOperands known nd (g.deref nd).operands = (false, []) ∧
          checkArityNode g nd = (false, [])) →
      checkOperandsNodes g known nodes = (false, []) := by
  intro nodes
  induction nodes with
  | nil => intro _; simp [checkOperandsNodes]
  | cons o rest ih =>
    intro hall
    match o with
    | none =>
      simp only [checkOperandsNodes]
      exact ih fun nd h => hall nd (List.mem_cons_of_mem _ h)
    | some m =>
      have hm := hall m (List.mem_cons_self _ _)
      have hr := ih fun nd h => hall nd (List.mem_cons_of_mem _ h)
      simp [checkOperandsNodes, hm.1, hm.2, hr]

theorem checkOperands_true_iff (g : PointerSubgraph) :
    (checkOperands g).1 = true ↔ (checkOperands g).2 ≠ [] := by
  have h1 := knownNodesLoop_true_iff g.nodes []
  have h2 := checkOperandsNodes_true_iff g (knownNodesLoop g.nodes []).1 g.nodes
  simp only [checkOperands, Bool.or_eq_true, h1, h2, ne_eq, List.append_eq_nil, not_and]
  tauto

theorem checkOperands_mem_unknown (g : PointerSubgraph) (nd : Ptr) (d : Diag)
    (hmem : some nd ∈ g.nodes)
    (hd : d ∈ (checkUnknownOperands (knownNodesLoop g.nodes []).1 nd (g.deref nd).operands).2) :
    d ∈ (checkOperands g).2 := by
  simp only [checkOperands, List.mem_append]
  exact Or.inr (checkOperandsNodes_mem_intro g _ g.nodes nd d hmem (Or.inl hd))

theorem checkOperands_mem_arity (g : PointerSubgraph) (nd : Ptr) (d : Diag)
    (hmem : some nd ∈ g.nodes) (hd : d ∈ (checkArityNode g nd).2) :
    d ∈ (checkOperands g).2 := by
  simp only [checkOperands, List.mem_append]
  exact Or.inr (checkOperandsNodes_mem_intro g _ g.nodes nd d hmem (Or.inr hd))

theorem checkOperands_mem_dup (g : PointerSubgraph) (nd : Ptr)
    (hdup : List.Duplicate (some nd) g.nodes) :
    Diag.mk DiagKind.invalNode nd "Node multiple times in the graph" ∈ (checkOperands g).2 := by
  simp only [checkOperands, List.mem_append]
  exact Or.inl (knownNodesLoop_duplicate g.nodes [] nd hdup)

theorem validate_true_of_mem_checkOperands (g : PointerSubgraph) (d : Diag)
    (hd : d ∈ (checkOperands g).2) : (validate g).1 = true := by
  have h : (checkOperands g).1 = true := by
    rw [checkOperands_true_iff]
    intro hnil
    rw [hnil] at hd
    simp at hd
  simp [validate, h]

theorem checkSuccEdges_shape (g : PointerSubgraph) (nd : Ptr) :
    ∀ (succs : List Ptr) (d : Diag), d ∈ (checkSuccEdges g nd succs).2 →
      d = Diag.mk DiagKind.invalEdges nd
          "Node not set as a predecessor of some of its successors" ∧
        ∃ s ∈ succs, isInPredecessors g nd s = false := by
  intro succs
  induction succs with
  | nil => intro d hd; simp [checkSuccEdges] at hd
  | cons s rest ih =>
    intro d hd
    by_cases h : isInPredecessors g nd s = true
    · simp only [checkSuccEdges, if_pos h] at hd
      obtain ⟨h1, t, ht, hf⟩ := ih d hd
      exact ⟨h1, t, List.mem_cons_of_mem _ ht, hf⟩
    · simp only [checkSuccEdges, if_neg h] at hd
      rcases List.mem_cons.mp hd with rfl | hd2
      · exact ⟨rfl, s, List.mem_cons_self _ _, by simpa using h⟩
      · obtain ⟨h1, t, ht, hf⟩ := ih d hd2
        exact ⟨h1, t, List.mem_cons_of_mem _ ht, hf⟩

theorem checkSuccEdges_mem (g : PointerSubgraph) (nd : Ptr) :
    ∀ (succs : List Ptr) (s : Ptr), s ∈ succs → isInPredecessors g nd s = false →
      Diag.mk DiagKind.invalEdges nd
          "Node not set as a predecessor of some of its successors"
        ∈ (checkSuccEdges g nd succs).2 := by
  intro succs
  induction succs with
  | nil => intro s hs; simp at hs
  | cons t rest ih =>
    intro s hs hf
    by_cases h : isInPredecessors g nd t = true
    · simp only [checkSuccEdges, if_pos h]
      rcases List.mem_cons.mp hs with rfl | hs2
      · rw [h] at hf; simp at hf
      · exact ih s hs2 hf
    · simp only [checkSuccEdges, if_neg h]
      exact List.mem_cons_self _ _

theorem checkSuccEdges_none (g : PointerSubgraph) (nd : Ptr) :
    ∀ succs : List Ptr, (∀ s ∈ succs, isInPredecessors g nd s = true) →
      checkSuccEdges g nd succs = (false, []) := by
  intro succs
  induction succs with
  | nil => intro _; simp [checkSuccEdges]
  | cons s rest ih =>
    intro hall
    simp only [checkSuccEdges, if_pos (hall s (List.mem_cons_self _ _))]
    exact ih fun t ht => hall t (List.mem_cons_of_mem _ ht)

theorem checkSuccEdges_true_iff (g : PointerSubgraph) (nd : Ptr) :
    ∀ succs : List Ptr,
      (checkSuccEdges g nd succs).1 = true ↔ (checkSuccEdges g nd succs).2 ≠ [] := by
  intro succs
  induction succs with
  | nil => simp [checkSuccEdges]
  | cons s rest ih =>
    by_cases h : isInPredecessors g nd s = true
    · simpa only [checkSuccEdges, if_pos h] using ih
    · simp [checkSuccEdges, if_neg h]

theorem checkEdgesNodes_pred_mem (g : PointerSubgraph) :
    ∀ (nodes : List (Option Ptr)) (nd : Ptr), some nd ∈ nodes →
      (g.deref nd).predecessors.length = 0 → ¬nd = g.root → ¬canBeOutsideGraph g nd = true →
      Diag.mk DiagKind.invalEdges nd "Non-root node has no predecessors"
        ∈ (checkEdgesNodes g nodes).2 := by
  intro nodes
  induction nodes with
  | nil => intro nd h; simp at h
  | cons o rest ih =>
    intro nd hmem h1 h2 h3
    match o with
    | none =>
      simp only [checkEdgesNodes]
      refine ih nd ?_ h1 h2 h3
      rcases List.mem_cons.mp hmem with h | h
      · exact absurd h (by simp)
      · exact h
    | some m =>
      simp only [checkEdgesNodes, List.mem_append]
      rcases List.mem_cons.mp hmem with heq | hmem2
      · have : nd = m := by simpa using heq
        subst this
        left
        rw [if_pos ⟨h1, h2, h3⟩]
        exact List.mem_cons_self _ _
      · exact Or.inr (Or.inr (ih nd hmem2 h1 h2 h3))

theorem checkEdgesNodes_sym_mem (g : PointerSubgraph) :
    ∀ (nodes : List (Option Ptr)) (nd : Ptr) (d : Diag), some nd ∈ nodes →
      d ∈ (checkSuccEdges g nd (succsOf g nd)).2 →
      d ∈ (checkEdgesNodes g nodes).2 := by
  intro nodes
  induction nodes with
  | nil => intro nd d h; simp at h
  | cons o rest ih =>
    intro nd d hmem hd
    match o with
    | none =>
      simp only [checkEdgesNodes]
      refine ih nd d ?_ hd
      rcases List.mem_cons.mp hmem with h | h
      · exact absurd h (by simp)
      · exact h
    | some m =>
      simp only [checkEdgesNodes, List.mem_append]
      rcases List.mem_cons.mp hmem with heq | hmem2
      · have : nd = m := by simpa using heq
        subst this
        exact Or.inr (Or.inl hd)
      · exact Or.inr (Or.inr (ih nd d hmem2 hd))

theorem checkEdgesNodes_mem_elim (g : PointerSubgraph) :
    ∀ (nodes : List (Option Ptr)) (d : Diag), d ∈ (checkEdgesNodes g nodes).2 →
      ∃ nd, some nd ∈ nodes ∧
        ((d = Diag.mk DiagKind.invalEdges nd "Non-root node has no predecessors" ∧
            (g.deref nd).predecessors.length = 0 ∧ ¬nd = g.root ∧
              ¬canBeOutsideGraph g nd = true) ∨
          d ∈ (checkSuccEdges g nd (succsOf g nd)).2) := by
  intro nodes
  induction nodes with
  | nil => intro d hd; simp [checkEdgesNodes] at hd
  | cons o rest ih =>
    intro d hd
    match o with
    | none =>
      obtain ⟨nd, h1, h2⟩ := ih d (by simpa only [checkEdgesNodes] using hd)
      exact ⟨nd, List.mem_cons_of_mem _ h1, h2⟩
    | some m =>
      simp only [checkEdgesNodes, List.mem_append] at hd
      rcases hd with hd | hd | hd
      · by_cases hc : (g.deref m).predecessors.length = 0 ∧ ¬m = g.root ∧
            ¬canBeOutsideGraph g m = true
        · rw [if_pos hc] at hd
          rcases List.mem_cons.mp hd with rfl | hd2
          · exact ⟨m, List.mem_cons_self _ _, Or.inl ⟨rfl, hc⟩⟩
          · simp at hd2
        · rw [if_neg hc] at hd
          simp at hd
      · exact ⟨m, List.mem_cons_self _ _, Or.inr hd⟩
      · obtain ⟨nd, h1, h2⟩ := ih d hd
        exact ⟨nd, List.mem_cons_of_mem _ h1, h2⟩

theorem checkEdgesNodes_true_iff (g : PointerSubgraph) :
    ∀ nodes : List (Option Ptr),
      (checkEdgesNodes g nodes).1 = true ↔ (checkEdgesNodes g nodes).2 ≠ [] := by
  intro nodes
  induction nodes with
  | nil => simp [checkEdgesNodes]
  | cons o rest ih =>
    match o with
    | none => simpa only [checkEdgesNodes] using ih
    | some m =>
      have hs := checkSuccEdges_true_iff g m (succsOf g m)
      by_cases hc : (g.deref m).predecessors.length = 0 ∧ ¬m = g.root ∧
          ¬canBeOutsideGraph g m = true
      · simp only [checkEdgesNodes]
        rw [if_pos hc]
        simp
      · simp only [checkEdgesNodes]
        rw [if_neg hc]
        simp only [Bool.false_or, Bool.or_eq_true, hs, ih, ne_eq, List.nil_append,
          List.append_eq_nil, not_and]
        tauto

theorem checkUnreachable_mem (g : PointerSubgraph) (reachable : List Ptr) :
    ∀ (nodes : List (Option Ptr)) (nd : Ptr), some nd ∈ nodes →
      ¬nd ∈ reachable → ¬canBeOutsideGraph g nd = true →
      Diag.mk DiagKind.unreachableNode nd "" ∈ (checkUnreachable g reachable nodes).2 := by
  intro nodes
  induction nodes with
  | nil => intro nd h; simp at h
  | cons o rest ih =>
    intro nd hmem h1 h2
    match o with
    | none =>
      simp only [checkUnreachable]
      refine ih nd ?_ h1 h2
      rcases List.mem_cons.mp hmem with h | h
      · exact absurd h (by simp)
      · exact h
    | some m =>
      by_cases hc : ¬m ∈ reachable ∧ ¬canBeOutsideGraph g m = true
      · simp only [checkUnreachable, if_pos hc]
        rcases List.mem_cons.mp hmem with heq | hmem2
        · have : nd = m := by simpa using heq
          subst this
          exact List.mem_cons_self _ _
        · exact List.mem_cons_of_mem _ (ih nd hmem2 h1 h2)
      · simp only [checkUnreachable, if_neg hc]
        rcases List.mem_cons.mp hmem with heq | hmem2
        · have : nd = m := by simpa using heq
          subst this
          exact absurd ⟨h1, h2⟩ hc
        · exact ih nd hmem2 h1 h2

theorem checkUnreachable_mem_elim (g : PointerSubgraph) (reachable : List Ptr) :
    ∀ (nodes : List (Option Ptr)) (d : Diag), d ∈ (checkUnreachable g reachable nodes).2 →
      ∃ nd, some nd ∈ nodes ∧ ¬nd ∈ reachable ∧ ¬canBeOutsideGraph g nd = true ∧
        d = Diag.mk DiagKind.unreachableNode nd "" := by
  intro nodes
  induction nodes with
  | nil => intro d hd; simp [checkUnreachable] at hd
  | cons o rest ih =>
    intro d hd
    match o with
    | none =>
      obtain ⟨nd, h1, h2⟩ := ih d (by simpa only [checkUnreachable] using hd)
      exact ⟨nd, List.mem_cons_of_mem _ h1, h2⟩
    | some m =>
      by_cases hc : ¬m ∈ reachable ∧ ¬canBeOutsideGraph g m = true
      · simp only [checkUnreachable, if_pos hc] at hd
        rcases List.mem_cons.mp hd with rfl | hd2
        · exact ⟨m, List.mem_cons_self _ _, hc.1, hc.2, rfl⟩
        · obtain ⟨nd, h1, h2⟩ := ih d hd2
          exact ⟨nd, List.mem_cons_of_mem _ h1, h2⟩
      · simp only [checkUnreachable, if_neg hc] at hd
        obtain ⟨nd, h1, h2⟩ := ih d hd
        exact ⟨nd, List.mem_cons_of_mem _ h1, h2⟩

theorem checkUnreachable_true_iff (g : PointerSubgraph) (reachable : List Ptr) :
    ∀ nodes : List (Option Ptr),
      (checkUnreachable g reachable nodes).1 = true ↔
        (checkUnreachable g reachable nodes).2 ≠ [] := by
  intro nodes
  induction nodes with
  | nil => simp [checkUnreachable]
  | cons o rest ih =>
    match o with
    | none => simpa only [checkUnreachable] using ih
    | some m =>
      by_cases hc : ¬m ∈ reachable ∧ ¬canBeOutsideGraph g m = true
      · simp only [checkUnreachable]
        rw [if_pos hc]
        simp
      · simp only [checkUnreachable]
        rw [if_neg hc]
        exact ih

theorem checkEdges_true_iff (g : PointerSubgraph) :
    (checkEdges g).1 = true ↔ (checkEdges g).2 ≠ [] := by
  have h1 := checkEdgesNodes_true_iff g g.nodes
  have h2 := checkUnreachable_true_iff g (reachableNodes g g.root) g.nodes
  simp only [checkEdges, Bool.or_eq_true, h1, h2, ne_eq, List.append_eq_nil, not_and]
  tauto

theorem validate_true_of_mem_checkEdges (g : PointerSubgraph) (d : Diag)
    (hd : d ∈ (checkEdges g).2) : (validate g).1 = true := by
  have h : (checkEdges g).1 = true := by
    rw [checkEdges_true_iff]
    intro hnil
    rw [hnil] at hd
    simp at hd
  simp [validate, h]

theorem ps_subset (g : PointerSubgraph) :
    ∀ (ss r acc : List Ptr) (x : Ptr), x ∈ r → x ∈ (processSuccs g r acc ss).1 := by
  intro ss
  induction ss with
  | nil => intro r acc x hx; simpa [processSuccs] using hx
  | cons s rest ih =>
    intro r acc x hx
    by_cases h : s ∈ r
    · simp only [processSuccs, if_pos h]
      exact ih r acc x hx
    · simp only [processSuccs, if_neg h]
      exact ih (s :: r) (acc ++ [s]) x (List.mem_cons_of_mem _ hx)

theorem ps_mem_elim (g : PointerSubgraph) :
    ∀ (ss r acc : List Ptr) (x : Ptr), x ∈ (processSuccs g r acc ss).1 →
      x ∈ r ∨ x ∈ ss := by
  intro ss
  induction ss with
  | nil => intro r acc x hx; simp [processSuccs] at hx; exact Or.inl hx
  | cons s rest ih =>
    intro r acc x hx
    by_cases h : s ∈ r
    · simp only [processSuccs, if_pos h] at hx
      rcases ih r acc x hx with h1 | h1
      · exact Or.inl h1
      · exact Or.inr (List.mem_cons_of_mem _ h1)
    · simp only [processSuccs, if_neg h] at hx
      rcases ih (s :: r) (acc ++ [s]) x hx with h1 | h1
      · rcases List.mem_cons.mp h1 with rfl | h2
        · exact Or.inr (List.mem_cons_self _ _)
        · exact Or.inl h2
      · exact Or.inr (List.mem_cons_of_mem _ h1)

theorem ps_nodup (g : PointerSubgraph) :
    ∀ (ss r acc : List Ptr), r.Nodup → (processSuccs g r acc ss).1.Nodup := by
  intro ss
  induction ss with
  | nil => intro r acc hr; simpa [processSuccs] using hr
  | cons s rest ih =>
    intro r acc hr
    by_cases h : s ∈ r
    · simp only [processSuccs, if_pos h]
      exact ih r acc hr
    · simp only [processSuccs, if_neg h]
      exact ih (s :: r) (acc ++ [s]) (List.nodup_cons.mpr ⟨h, hr⟩)

theorem ps_succs_mem (g : PointerSubgraph) :
    ∀ (ss r acc : List Ptr) (s : Ptr), s ∈ ss → s ∈ (processSuccs g r acc ss).1 := by
  intro ss
  induction ss with
  | nil => intro r acc s hs; simp at hs
  | cons t rest ih =>
    intro r acc s hs
    by_cases h : t ∈ r
    · simp only [processSuccs, if_pos h]
      rcases List.mem_cons.mp hs with rfl | hs2
      · exact ps_subset g rest r acc s h
      · exact ih r acc s hs2
    · simp only [processSuccs, if_neg h]
      rcases List.mem_cons.mp hs with rfl | hs2
      · exact ps_subset g rest (s :: r) (acc ++ [s]) s (List.mem_cons_self _ _)
      · exact ih (t :: r) (acc ++ [t]) s hs2

theorem ps_acc_subset (g : PointerSubgraph) :
    ∀ (ss r acc : List Ptr) (x : Ptr), x ∈ acc → x ∈ (processSuccs g r acc ss).2 := by
  intro ss
  induction ss with
  | nil => intro r acc x hx; simpa [processSuccs] using hx
  | cons s rest ih =>
    intro r acc x hx
    by_cases h : s ∈ r
    · simp only [processSuccs, if_pos h]
      exact ih r acc x hx
    · simp only [processSuccs, if_neg h]
      exact ih (s :: r) (acc ++ [s]) x (List.mem_append_left _ hx)

theorem ps_acc_mem (g : PointerSubgraph) :
    ∀ (ss r acc : List Ptr) (x : Ptr), x ∈ (processSuccs g r acc ss).2 →
      x ∈ acc ∨ x ∈ (processSuccs g r acc ss).1 := by
  intro ss
  induction ss with
  | nil => intro r acc x hx; simp [processSuccs] at hx ⊢; exact Or.inl hx
  | cons s rest ih =>
    intro r acc x hx
    by_cases h : s ∈ r
    · simp only [processSuccs, if_pos h] at hx ⊢
      exact ih r acc x hx
    · simp only [processSuccs, if_neg h] at hx ⊢
      rcases ih (s :: r) (acc ++ [s]) x hx with h1 | h1
      · rcases List.mem_append.mp h1 with h2 | h2
        · exact Or.inl h2
        · have : x = s := by simpa using h2
          subst this
          exact Or.inr (ps_subset g rest (x :: r) (acc ++ [x]) x (List.mem_cons_self _ _))
      · exact Or.inr h1

theorem ps_new_mem (g : PointerSubgraph) :
    ∀ (ss r acc : List Ptr) (x : Ptr), x ∈ (processSuccs g r acc ss).1 →
      x ∈ r ∨ x ∈ (processSuccs g r acc ss).2 := by
  intro ss
  induction ss with
  | nil => intro r acc x hx; simp [processSuccs] at hx ⊢; exact Or.inl hx
  | cons s rest ih =>
    intro r acc x hx
    by_cases h : s ∈ r
    · simp only [processSuccs, if_pos h] at hx ⊢
      exact ih r acc x hx
    · simp only [processSuccs, if_neg h] at hx ⊢
      rcases ih (s :: r) (acc ++ [s]) x hx with h1 | h1
      · rcases List.mem_cons.mp h1 with rfl | h2
        · exact Or.inr (ps_acc_subset g rest (x :: r) (acc ++ [x]) x
            (List.mem_append_right _ (List.mem_singleton_self _)))
        · exact Or.inl h2
      · exact Or.inr h1

theorem ps_len (g : PointerSubgraph) :
    ∀ (ss r acc : List Ptr),
      (processSuccs g r acc ss).1.length + acc.length =
        r.length + (processSuccs g r acc ss).2.length := by
  intro ss
  induction ss with
  | nil => intro r acc; simp [processSuccs]
  | cons s rest ih =>
    intro r acc
    by_cases h : s ∈ r
    · simp only [processSuccs, if_pos h]
      exact ih r acc
    · simp only [processSuccs, if_neg h]
      have := ih (s :: r) (acc ++ [s])
      simp only [List.length_cons, List.length_append, List.length_nil] at this
      omega

theorem ps_progress (g : PointerSubgraph) :
    ∀ (ss r acc : List Ptr), ∃ new : List Ptr,
      (processSuccs g r acc ss).2 = acc ++ new ∧
        (new = [] → (processSuccs g r acc ss).1 = r) := by
  intro ss
  induction ss with
  | nil => intro r acc; exact ⟨[], by simp [processSuccs], fun _ => by simp [processSuccs]⟩
  | cons s rest ih =>
    intro r acc
    by_cases h : s ∈ r
    · obtain ⟨new, h1, h2⟩ := ih r acc
      exact ⟨new, by simpa only [processSuccs, if_pos h] using h1,
        fun hn => by simpa only [processSuccs, if_pos h] using h2 hn⟩
    · obtain ⟨new, h1, h2⟩ := ih (s :: r) (acc ++ [s])
      refine ⟨s :: new, ?_, ?_⟩
      · simp only [processSuccs, if_neg h, h1, List.append_assoc, List.singleton_append]
      · intro hn
        simp at hn

theorem ps_no_insert (g : PointerSubgraph) :
    ∀ (ss r acc : List Ptr), (∀ s ∈ ss, s ∈ r) →
      processSuccs g r acc ss = (r, acc) := by
  intro ss
  induction ss with
  | nil => intro r acc _; simp [processSuccs]
  | cons s rest ih =>
    intro r acc hall
    simp only [processSuccs, if_pos (hall s (List.mem_cons_self _ _))]
    exact ih r acc fun t ht => hall t (List.mem_cons_of_mem _ ht)

theorem pl_subset (g : PointerSubgraph) :
    ∀ (tp r acc : List Ptr) (x : Ptr), x ∈ r → x ∈ (processLevel g tp r acc).1 := by
  intro tp
  induction tp with
  | nil => intro r acc x hx; simpa [processLevel] using hx
  | cons cur rest ih =>
    intro r acc x hx
    simp only [processLevel]
    exact ih _ _ x (ps_subset g (succsOf g cur) r acc x hx)

theorem pl_mem_elim (g : PointerSubgraph) :
    ∀ (tp r acc : List Ptr) (x : Ptr), x ∈ (processLevel g tp r acc).1 →
      x ∈ r ∨ ∃ c ∈ tp, x ∈ succsOf g c := by
  intro tp
  induction tp with
  | nil => intro r acc x hx; simp [processLevel] at hx; exact Or.inl hx
  | cons cur rest ih =>
    intro r acc x hx
    simp only [processLevel] at hx
    rcases ih _ _ x hx with h1 | ⟨c, hc, hcs⟩
    · rcases ps_mem_elim g (succsOf g cur) r acc x h1 with h2 | h2
      · exact Or.inl h2
      · exact Or.inr ⟨cur, List.mem_cons_self _ _, h2⟩
    · exact Or.inr ⟨c, List.mem_cons_of_mem _ hc, hcs⟩

theorem pl_nodup (g : PointerSubgraph) :
    ∀ (tp r acc : List Ptr), r.Nodup → (processLevel g tp r acc).1.Nodup := by
  intro tp
  induction tp with
  | nil => intro r acc hr; simpa [processLevel] using hr
  | cons cur rest ih =>
    intro r acc hr
    simp only [processLevel]
    exact ih _ _ (ps_nodup g (succsOf g cur) r acc hr)

theorem pl_closed (g : PointerSubgraph) :
    ∀ (tp r acc : List Ptr) (c : Ptr), c ∈ tp → ∀ s ∈ succsOf g c,
      s ∈ (processLevel g tp r acc).1 := by
  intro tp
  induction tp with
  | nil => intro r acc c hc; simp at hc
  | cons cur rest ih =>
    intro r acc c hc s hs
    simp only [processLevel]
    rcases List.mem_cons.mp hc with rfl | hc2
    · exact pl_subset g rest _ _ s (ps_succs_mem g (succsOf g c) r acc s hs)
    · exact ih _ _ c hc2 s hs

theorem pl_acc_subset (g : PointerSubgraph) :
    ∀ (tp r acc : List Ptr) (x : Ptr), x ∈ acc → x ∈ (processLevel g tp r acc).2 := by
  intro tp
  induction tp with
  | nil => intro r acc x hx; simpa [processLevel] using hx
  | cons cur rest ih =>
    intro r acc x hx
    simp only [processLevel]
    exact ih _ _ x (ps_acc_subset g (succsOf g cur) r acc x hx)

theorem pl_acc_mem (g : PointerSubgraph) :
    ∀ (tp r acc : List Ptr) (x : Ptr), x ∈ (processLevel g tp r acc).2 →
      x ∈ acc ∨ x ∈ (processLevel g tp r acc).1 := by
  intro tp
  induction tp with
  | nil => intro r acc x hx; simp [processLevel] at hx ⊢; exact Or.inl hx
  | cons cur rest ih =>
    intro r acc x hx
    simp only [processLevel] at hx ⊢
    rcases ih _ _ x hx with h1 | h1
    · rcases ps_acc_mem g (succsOf g cur) r acc x h1 with h2 | h2
      · exact Or.inl h2
      · exact Or.inr (pl_subset g rest _ _ x h2)
    · exact Or.inr h1

theorem pl_new_mem (g : PointerSubgraph) :
    ∀ (tp r acc : List Ptr) (x : Ptr), x ∈ (processLevel g tp r acc).1 →
      x ∈ r ∨ x ∈ (processLevel g tp r acc).2 := by
  intro tp
  induction tp with
  | nil => intro r acc x hx; simp [processLevel] at hx ⊢; exact Or.inl hx
  | cons cur rest ih =>
    intro r acc x hx
    simp only [processLevel] at hx ⊢
    rcases ih _ _ x hx with h1 | h1
    · rcases ps_new_mem g (succsOf g cur) r acc x h1 with h2 | h2
      · exact Or.inl h2
      · exact Or.inr (pl_acc_subset g rest _ _ x h2)
    · exact Or.inr h1

theorem pl_len (g : PointerSubgraph) :
    ∀ (tp r acc : List Ptr),
      (processLevel g tp r acc).1.length + acc.length =
        r.length + (processLevel g tp r acc).2.length := by
  intro tp
  induction tp with
  | nil => intro r acc; simp [processLevel]
  | cons cur rest ih =>
    intro r acc
    simp only [processLevel]
    have h1 := ih (processSuccs g r acc (succsOf g cur)).1 (processSuccs g r acc (succsOf g cur)).2
    have h2 := ps_len g (succsOf g cur) r acc
    omega

theorem pl_progress (g : PointerSubgraph) :
    ∀ (tp r acc : List Ptr), ∃ new : List Ptr,
      (processLevel g tp r acc).2 = acc ++ new ∧
        (new = [] → (processLevel g tp r acc).1 = r) := by
  intro tp
  induction tp with
  | nil => intro r acc; exact ⟨[], by simp [processLevel], fun _ => by simp [processLevel]⟩
  | cons cur rest ih =>
    intro r acc
    obtain ⟨new1, h1, h2⟩ := ps_progress g (succsOf g cur) r acc
    obtain ⟨new2, h3, h4⟩ := ih (processSuccs g r acc (succsOf g cur)).1
      (processSuccs g r acc (succsOf g cur)).2
    refine ⟨new1 ++ new2, ?_, ?_⟩
    · simp only [processLevel]
      rw [h3, h1, List.append_assoc]
    · intro hn
      rcases List.append_eq_nil.mp hn with ⟨hn1, hn2⟩
      simp only [processLevel]
      rw [h4 hn2, h2 hn1]

theorem pl_no_insert (g : PointerSubgraph) :
    ∀ (tp r acc : List Ptr), (∀ c ∈ tp, ∀ s ∈ succsOf g c, s ∈ r) →
      processLevel g tp r acc = (r, acc) := by
  intro tp
  induction tp with
  | nil => intro r acc _; simp [processLevel]
  | cons cur rest ih =>
    intro r acc hall
    simp only [processLevel, ps_no_insert g (succsOf g cur) r acc
      (hall cur (List.mem_cons_self _ _))]
    exact ih r acc fun c hc => hall c (List.mem_cons_of_mem _ hc)

theorem lookup_mem :
    ∀ (l : List (Ptr × PSNodeData)) (p : Ptr) (d : PSNodeData),
      l.lookup p = some d → (p, d) ∈ l := by
  intro l
  induction l with
  | nil => intro p d h; simp [List.lookup] at h
  | cons e rest ih =>
    rcases e with ⟨k, v⟩
    intro p d h
    rw [List.lookup] at h
    cases hbe : p == k with
    | false =>
      rw [hbe] at h
      exact List.mem_cons_of_mem _ (ih p d h)
    | true =>
      rw [hbe] at h
      have hpe : p = k := by simpa using hbe
      have hde : v = d := by simpa using h
      rw [hpe, ← hde]
      exact List.mem_cons_self _ _

theorem univ_succs (g : PointerSubgraph) (start : Ptr) :
    ∀ (p s : Ptr), s ∈ succsOf g p → s ∈ bfsUniverse g start := by
  intro p s hs
  unfold succsOf PointerSubgraph.deref at hs
  match hl : g.arena.lookup p with
  | none => rw [hl] at hs; simp [defaultPSNode] at hs
  | some d =>
    rw [hl] at hs
    simp only [Option.getD_some] at hs
    have hmem : (p, d) ∈ g.arena := lookup_mem g.arena p d hl
    unfold bfsUniverse
    refine List.mem_cons_of_mem _ ?_
    rw [List.mem_flatten]
    exact ⟨d.successors, List.mem_map_of_mem _ hmem, hs⟩

theorem bfs_nil_tp (g : PointerSubgraph) (fuel : Nat) (r : List Ptr) :
    bfsLoop g fuel r [] = r := by
  cases fuel <;> simp [bfsLoop]

theorem bfs_cons (g : PointerSubgraph) (fuel : Nat) (r : List Ptr) (c : Ptr)
    (rest : List Ptr) :
    bfsLoop g (fuel + 1) r (c :: rest) =
      bfsLoop g fuel (processLevel g (c :: rest) r []).1
        (processLevel g (c :: rest) r []).2 := by
  simp [bfsLoop]

theorem bfs_subset (g : PointerSubgraph) :
    ∀ (fuel : Nat) (r tp : List Ptr) (x : Ptr), x ∈ r → x ∈ bfsLoop g fuel r tp := by
  intro fuel
  induction fuel with
  | zero => intro r tp x hx; simpa [bfsLoop] using hx
  | succ f ih =>
    intro r tp x hx
    cases tp with
    | nil => rw [bfs_nil_tp]; exact hx
    | cons c rest =>
      rw [bfs_cons]
      exact ih _ _ x (pl_subset g (c :: rest) r [] x hx)

theorem bfs_nodup (g : PointerSubgraph) :
    ∀ (fuel : Nat) (r tp : List Ptr), r.Nodup → (bfsLoop g fuel r tp).Nodup := by
  intro fuel
  induction fuel with
  | zero => intro r tp hr; simpa [bfsLoop] using hr
  | succ f ih =>
    intro r tp hr
    cases tp with
    | nil => rw [bfs_nil_tp]; exact hr
    | cons c rest =>
      rw [bfs_cons]
      exact ih _ _ (pl_nodup g (c :: rest) r [] hr)

theorem bfs_sound (g : PointerSubgraph) (start : Ptr) :
    ∀ (fuel : Nat) (r tp : List Ptr),
      (∀ x ∈ r, ReachableFrom g start x) → (∀ c ∈ tp, ReachableFrom g start c) →
      ∀ x ∈ bfsLoop g fuel r tp, ReachableFrom g start x := by
  intro fuel
  induction fuel with
  | zero => intro r tp hr _ x hx; exact hr x (by simpa [bfsLoop] using hx)
  | succ f ih =>
    intro r tp hr htp x hx
    cases tp with
    | nil =>
      rw [bfs_nil_tp] at hx
      exact hr x hx
    | cons c rest =>
      rw [bfs_cons] at hx
      have hr2 : ∀ y ∈ (processLevel g (c :: rest) r []).1, ReachableFrom g start y := by
        intro y hy
        rcases pl_mem_elim g (c :: rest) r [] y hy with h | ⟨c2, hc2, hcs⟩
        · exact hr y h
        · exact Relation.ReflTransGen.tail (htp c2 hc2) hcs
      have htp2 : ∀ y ∈ (processLevel g (c :: rest) r []).2, ReachableFrom g start y := by
        intro y hy
        rcases pl_acc_mem g (c :: rest) r [] y hy with h | h
        · simp at h
        · exact hr2 y h
      exact ih _ _ hr2 htp2 x hx

theorem bfs_saturated (g : PointerSubgraph) (r : List Ptr)
    (hsat : ∀ c, ∀ s ∈ succsOf g c, s ∈ r) :
    ∀ (fuel : Nat) (tp : List Ptr), bfsLoop g fuel r tp = r := by
  intro fuel
  induction fuel with
  | zero => intro tp; simp [bfsLoop]
  | succ f ih =>
    intro tp
    cases tp with
    | nil => exact bfs_nil_tp g _ r
    | cons c rest =>
      rw [bfs_cons, pl_no_insert g (c :: rest) r [] fun c2 _ => hsat c2]
      exact ih []

theorem nodup_subset_full {r U : List Ptr} (hnd : r.Nodup) (hsub : r ⊆ U)
    (hlen : U.length ≤ r.length) : ∀ u ∈ U, u ∈ r := by
  intro u hu
  by_contra hur
  have hnd2 : (u :: r).Nodup := List.nodup_cons.mpr ⟨hur, hnd⟩
  have hsub2 : (u :: r) ⊆ U := by
    intro x hx
    rcases List.mem_cons.mp hx with rfl | hx2
    · exact hu
    · exact hsub hx2
  have := (hnd2.subperm hsub2).length_le
  simp only [List.length_cons] at this
  omega

theorem bfs_step (g : PointerSubgraph) (U : List Ptr)
    (hU : ∀ p s, s ∈ succsOf g p → s ∈ U) (r tp : List Ptr) (hinv : BfsInv g U r tp) :
    BfsInv g U (processLevel g tp r []).1 (processLevel g tp r []).2 ∧
      (∀ x ∈ r, x ∈ (processLevel g tp r []).1) ∧
      (processLevel g tp r []).1.length = r.length + (processLevel g tp r []).2.length := by
  obtain ⟨hnd, hsub, htp, hcl⟩ := hinv
  refine ⟨⟨pl_nodup g tp r [] hnd, ?_, ?_, ?_⟩, ?_, ?_⟩
  · intro x hx
    rcases pl_mem_elim g tp r [] x hx with h | ⟨c, _, hcs⟩
    · exact hsub h
    · exact hU c x hcs
  · intro x hx
    rcases pl_acc_mem g tp r [] x hx with h | h
    · simp at h
    · exact h
  · intro x hx
    rcases pl_new_mem g tp r [] x hx with hxr | hxacc
    · rcases hcl x hxr with hxtp | hclx
      · exact Or.inr fun s hs => pl_closed g tp r [] x hxtp s hs
      · exact Or.inr fun s hs => pl_subset g tp r [] s (hclx s hs)
    · exact Or.inl hxacc
  · intro x hx
    exact pl_subset g tp r [] x hx
  · have := pl_len g tp r []
    simpa using this

theorem bfs_closed (g : PointerSubgraph) (U : List Ptr)
    (hU : ∀ p s, s ∈ succsOf g p → s ∈ U) :
    ∀ (n fuel : Nat) (r tp : List Ptr), BfsInv g U r tp →
      U.length ≤ r.length + n → n ≤ fuel →
      ∀ x ∈ bfsLoop g fuel r tp, ∀ s ∈ succsOf g x, s ∈ bfsLoop g fuel r tp := by
  intro n
  induction n with
  | zero =>
    intro fuel r tp hinv hlen _
    have hUr := nodup_subset_full hinv.1 hinv.2.1 (by omega)
    have hsat : ∀ c, ∀ s ∈ succsOf g c, s ∈ r := fun c s hs => hUr s (hU c s hs)
    rw [bfs_saturated g r hsat fuel tp]
    intro x _ s hs
    exact hsat x s hs
  | succ n ih =>
    intro fuel r tp hinv hlen hfuel
    cases tp with
    | nil =>
      rw [bfs_nil_tp]
      intro x hx s hs
      rcases hinv.2.2.2 x hx with hmem | hclx
      · simp at hmem
      · exact hclx s hs
    | cons c rest =>
      cases fuel with
      | zero => omega
      | succ f =>
        rw [bfs_cons]
        obtain ⟨hinv2, _, hlen2⟩ := bfs_step g U hU r (c :: rest) hinv
        by_cases htp2 : (processLevel g (c :: rest) r []).2 = []
        · rw [htp2, bfs_nil_tp]
          intro x hx s hs
          rcases hinv2.2.2.2 x hx with hmem | hclx
          · rw [htp2] at hmem
            simp at hmem
          · exact hclx s hs
        · have hpos : 1 ≤ (processLevel g (c :: rest) r []).2.length :=
            List.length_pos.mpr htp2
          exact ih f _ _ hinv2 (by omega) (by omega)

theorem bfs_stable (g : PointerSubgraph) (U : List Ptr)
    (hU : ∀ p s, s ∈ succsOf g p → s ∈ U) :
    ∀ (n f1 f2 : Nat) (r tp : List Ptr), BfsInv g U r tp →
      U.length ≤ r.length + n → n ≤ f1 → n ≤ f2 →
      bfsLoop g f1 r tp = bfsLoop g f2 r tp := by
  intro n
  induction n with
  | zero =>
    intro f1 f2 r tp hinv hlen _ _
    have hUr := nodup_subset_full hinv.1 hinv.2.1 (by omega)
    have hsat : ∀ c, ∀ s ∈ succsOf g c, s ∈ r := fun c s hs => hUr s (hU c s hs)
    rw [bfs_saturated g r hsat f1 tp, bfs_saturated g r hsat f2 tp]
  | succ n ih =>
    intro f1 f2 r tp hinv hlen h1 h2
    cases tp with
    | nil => rw [bfs_nil_tp, bfs_nil_tp]
    | cons c rest =>
      cases f1 with
      | zero => omega
      | succ a =>
        cases f2 with
        | zero => omega
        | succ b =>
          rw [bfs_cons, bfs_cons]
          obtain ⟨hinv2, _, hlen2⟩ := bfs_step g U hU r (c :: rest) hinv
          by_cases htp2 : (processLevel g (c :: rest) r []).2 = []
          · rw [htp2, bfs_nil_tp, bfs_nil_tp]
          · have hpos : 1 ≤ (processLevel g (c :: rest) r []).2.length :=
              List.length_pos.mpr htp2
            exact ih a b _ _ hinv2 (by omega) (by omega) (by omega)

theorem bfs_init_inv (g : PointerSubgraph) (nd : Ptr) :
    BfsInv g (bfsUniverse g nd) [nd] [nd] := by
  refine ⟨by simp, ?_, fun x hx => hx, fun x hx => Or.inl hx⟩
  intro x hx
  have : x = nd := by simpa using hx
  subst this
  exact List.mem_cons_self _ _

theorem reachableNodes_start_mem (g : PointerSubgraph) (nd : Ptr) :
    nd ∈ reachableNodes g nd :=
  bfs_subset g _ [nd] [nd] nd (List.mem_cons_self _ _)

theorem reachableNodes_nodup (g : PointerSubgraph) (nd : Ptr) :
    (reachableNodes g nd).Nodup :=
  bfs_nodup g _ [nd] [nd] (by simp)

theorem reachableNodes_closed (g : PointerSubgraph) (nd : Ptr) :
    ∀ x ∈ reachableNodes g nd, ∀ s ∈ succsOf g x, s ∈ reachableNodes g nd := by
  unfold reachableNodes
  exact bfs_closed g (bfsUniverse g nd) (univ_succs g nd) (bfsUniverse g nd).length
    ((bfsUniverse g nd).length + 1) [nd] [nd] (bfs_init_inv g nd) (by simp) (by omega)

theorem reachable_sound (g : PointerSubgraph) (nd x : Ptr)
    (hx : x ∈ reachableNodes g nd) : ReachableFrom g nd x := by
  refine bfs_sound g nd _ [nd] [nd] ?_ ?_ x hx
  · intro y hy
    have : y = nd := by simpa using hy
    subst this
    exact Relation.ReflTransGen.refl
  · intro y hy
    have : y = nd := by simpa using hy
    subst this
    exact Relation.ReflTransGen.refl

theorem reachable_complete (g : PointerSubgraph) (nd x : Ptr)
    (hx : ReachableFrom g nd x) : x ∈ reachableNodes g nd := by
  induction hx with
  | refl => exact reachableNodes_start_mem g nd
  | tail _ hstep ih => exact reachableNodes_closed g nd _ ih _ hstep

theorem reachableNodes_stable (g : PointerSubgraph) (nd : Ptr) (fuel : Nat)
    (hfuel : (bfsUniverse g nd).length + 1 ≤ fuel) :
    bfsLoop g fuel [nd] [nd] = reachableNodes g nd := by
  unfold reachableNodes
  exact bfs_stable g (bfsUniverse g nd) (univ_succs g nd) (bfsUniverse g nd).length
    fuel ((bfsUniverse g nd).length + 1) [nd] [nd] (bfs_init_inv g nd)
    (by simp) (by omega) (by omega)

theorem canBeOutsideGraph_iff (g : PointerSubgraph) (nd : Ptr) :
    canBeOutsideGraph g nd = true ↔ specExemptKind (g.deref nd).type := by
  rcases htype : (g.deref nd).type <;> simp [canBeOutsideGraph, htype, specExemptKind]

theorem isInPredecessors_iff (g : PointerSubgraph) (nd of : Ptr) :
    isInPredecessors g nd of = true ↔ nd ∈ (g.deref of).predecessors := by
  unfold isInPredecessors
  exact memPtr_iff nd _

theorem checkEdgesNodes_none (g : PointerSubgraph) :
    ∀ nodes : List (Option Ptr),
      (∀ nd, some nd ∈ nodes →
        ¬((g.deref nd).predecessors.length = 0 ∧ ¬nd = g.root ∧
            ¬canBeOutsideGraph g nd = true) ∧
          checkSuccEdges g nd (succsOf g nd) = (false, [])) →
      checkEdgesNodes g nodes = (false, []) := by
  intro nodes
  induction nodes with
  | nil => intro _; simp [checkEdgesNodes]
  | cons o rest ih =>
    intro hall
    match o with
    | none =>
      simp only [checkEdgesNodes]
      exact ih fun nd h => hall nd (List.mem_cons_of_mem _ h)
    | some m =>
      have hm := hall m (List.mem_cons_self _ _)
      have hr := ih fun nd h => hall nd (List.mem_cons_of_mem _ h)
      simp only [checkEdgesNodes]
      rw [if_neg hm.1]
      simp [hm.2, hr]

theorem checkUnreachable_none (g : PointerSubgraph) (reachable : List Ptr) :
    ∀ nodes : List (Option Ptr),
      (∀ nd, some nd ∈ nodes → ¬(¬nd ∈ reachable ∧ ¬canBeOutsideGraph g nd = true)) →
      checkUnreachable g reachable nodes = (false, []) := by
  intro nodes
  induction nodes with
  | nil => intro _; simp [checkUnreachable]
  | cons o rest ih =>
    intro hall
    match o with
    | none =>
      simp only [checkUnreachable]
      exact ih fun nd h => hall nd (List.mem_cons_of_mem _ h)
    | some m =>
      simp only [checkUnreachable]
      rw [if_neg (hall m (List.mem_cons_self _ _))]
      exact ih fun nd h => hall nd (List.mem_cons_of_mem _ h)

theorem checkOperands_valid (g : PointerSubgraph) (h : ValidGraph g) :
    checkOperands g = (false, []) := by
  obtain ⟨h1, h2, h3, _, _⟩ := h
  have hk : (knownNodesLoop g.nodes []).2 = (false, []) := by
    refine knownNodesLoop_nodup g.nodes [] h1 ?_
    intro x hx
    simp at hx
  have hcon : checkOperandsNodes g (knownNodesLoop g.nodes []).1 g.nodes = (false, []) := by
    refine checkOperandsNodes_none g _ g.nodes ?_
    intro nd hnd
    constructor
    · refine checkUnknownOperands_none _ nd _ ?_
      intro op hop
      have hmem : nd ∈ nodeMembers g := (mem_nodeMembers_iff g nd).mpr hnd
      rcases h2 nd hmem op hop with hc | hc | hc | hc
      · exact Or.inl hc
      · exact Or.inr (Or.inl hc)
      · exact Or.inr (Or.inr (Or.inl hc))
      · refine Or.inr (Or.inr (Or.inr ?_))
        rw [knownNodesLoop_fst_mem]
        exact Or.inr ((mem_nodeMembers_iff g op).mp hc)
    · exact checkArityNode_arityOk g nd (h3 nd ((mem_nodeMembers_iff g nd).mpr hnd))
  simp [checkOperands, hk, hcon]

theorem checkEdges_valid (g : PointerSubgraph) (h : ValidGraph g) :
    checkEdges g = (false, []) := by
  obtain ⟨_, _, _, h4, h5⟩ := h
  have hen : checkEdgesNodes g g.nodes = (false, []) := by
    refine checkEdgesNodes_none g g.nodes ?_
    intro nd hnd
    have hmem : nd ∈ nodeMembers g := (mem_nodeMembers_iff g nd).mpr hnd
    constructor
    · rintro ⟨hp, hroot, hout⟩
      have hex : ¬specExemptKind (g.deref nd).type := by
        intro hs
        exact hout ((canBeOutsideGraph_iff g nd).mpr hs)
      have := (h5 nd hmem hroot hex).1
      rw [List.length_eq_zero] at hp
      exact this hp
    · refine checkSuccEdges_none g nd _ ?_
      intro s hs
      rw [isInPredecessors_iff]
      exact h4 nd hmem s hs
  have hun : checkUnreachable g (reachableNodes g g.root) g.nodes = (false, []) := by
    refine checkUnreachable_none g _ g.nodes ?_
    intro nd hnd
    have hmem : nd ∈ nodeMembers g := (mem_nodeMembers_iff g nd).mpr hnd
    rintro ⟨hur, hout⟩
    have hex : ¬specExemptKind (g.deref nd).type := by
      intro hs
      exact hout ((canBeOutsideGraph_iff g nd).mpr hs)
    by_cases hroot : nd = g.root
    · subst hroot
      exact hur (reachableNodes_start_mem g g.root)
    · exact hur (reachable_complete g g.root nd (h5 nd hmem hroot hex).2)
  simp [checkEdges, hen, hun]

theorem validate_valid (g : PointerSubgraph) (h : ValidGraph g) :
    validate g = (false, []) := by
  simp [validate, checkOperands_valid g h, checkEdges_valid g h]

theorem knownNodesLoop_skip_none :
    ∀ (l1 l2 : List (Option Ptr)) (known : List Ptr),
      knownNodesLoop (l1 ++ none :: l2) known = knownNodesLoop (l1 ++ l2) known := by
  intro l1
  induction l1 with
  | nil => intro l2 known; simp only [List.nil_append, knownNodesLoop]
  | cons o rest ih =>
    intro l2 known
    match o with
    | none => simp only [List.cons_append, knownNodesLoop, List.append_eq, ih]
    | some m =>
      by_cases h : m ∈ known
      · simp only [List.cons_append, knownNodesLoop, List.append_eq, if_pos h, ih]
      · simp only [List.cons_append, knownNodesLoop, List.append_eq, if_neg h, ih]

theorem checkOperandsNodes_skip_none (g : PointerSubgraph) (known : List Ptr) :
    ∀ l1 l2 : List (Option Ptr),
      checkOperandsNodes g known (l1 ++ none :: l2) = checkOperandsNodes g known (l1 ++ l2) := by
  intro l1
  induction l1 with
  | nil => intro l2; simp only [List.nil_append, checkOperandsNodes]
  | cons o rest ih =>
    intro l2
    match o with
    | none => simp only [List.cons_append, checkOperandsNodes, List.append_eq, ih]
    | some m => simp only [List.cons_append, checkOperandsNodes, List.append_eq, ih]

theorem checkEdgesNodes_skip_none (g : PointerSubgraph) :
    ∀ l1 l2 : List (Option Ptr),
      checkEdgesNodes g (l1 ++ none :: l2) = checkEdgesNodes g (l1 ++ l2) := by
  intro l1
  induction l1 with
  | nil => intro l2; simp only [List.nil_append, checkEdgesNodes]
  | cons o rest ih =>
    intro l2
    match o with
    | none => simp only [List.cons_append, checkEdgesNodes, List.append_eq, ih]
    | some m => simp only [List.cons_append, checkEdgesNodes, List.append_eq, ih]

theorem checkUnreachable_skip_none (g : PointerSubgraph) (reachable : List Ptr) :
    ∀ l1 l2 : List (Option Ptr),
      checkUnreachable g reachable (l1 ++ none :: l2) =
        checkUnreachable g reachable (l1 ++ l2) := by
  intro l1
  induction l1 with
  | nil => intro l2; simp only [List.nil_append, checkUnreachable]
  | cons o rest ih =>
    intro l2
    match o with
    | none => simp only [List.cons_append, checkUnreachable, List.append_eq, ih]
    | some m => simp only [List.cons_append, checkUnreachable, List.append_eq, ih]

theorem processSuccs_g (g1 g2 : PointerSubgraph) :
    ∀ (ss r acc : List Ptr), processSuccs g1 r acc ss = processSuccs g2 r acc ss := by
  intro ss
  induction ss with
  | nil => intro r acc; rfl
  | cons s rest ih =>
    intro r acc
    by_cases h : s ∈ r
    · simp only [processSuccs, if_pos h, ih]
    · simp only [processSuccs, if_neg h, ih]

theorem processLevel_mk (ar : List (Ptr × PSNodeData)) (ns1 ns2 : List (Option Ptr))
    (rt1 rt2 : Ptr) :
    ∀ (tp r acc : List Ptr),
      processLevel (PointerSubgraph.mk ar ns1 rt1) tp r acc =
        processLevel (PointerSubgraph.mk ar ns2 rt2) tp r acc := by
  intro tp
  induction tp with
  | nil => intro r acc; rfl
  | cons c rest ih =>
    intro r acc
    have hsucc : succsOf (PointerSubgraph.mk ar ns1 rt1) c =
        succsOf (PointerSubgraph.mk ar ns2 rt2) c := rfl
    simp only [processLevel, processSuccs_g (PointerSubgraph.mk ar ns1 rt1)
      (PointerSubgraph.mk ar ns2 rt2), hsucc, ih]

theorem bfsLoop_mk (ar : List (Ptr × PSNodeData)) (ns1 ns2 : List (Option Ptr))
    (rt1 rt2 : Ptr) :
    ∀ (fuel : Nat) (r tp : List Ptr),
      bfsLoop (PointerSubgraph.mk ar ns1 rt1) fuel r tp =
        bfsLoop (PointerSubgraph.mk ar ns2 rt2) fuel r tp := by
  intro fuel
  induction fuel with
  | zero => intro r tp; rfl
  | succ f ih =>
    intro r tp
    cases tp with
    | nil => rw [bfs_nil_tp, bfs_nil_tp]
    | cons c rest =>
      rw [bfs_cons, bfs_cons, processLevel_mk ar ns1 ns2 rt1 rt2]
      exact ih _ _

theorem reachableNodes_mk (ar : List (Ptr × PSNodeData)) (ns1 ns2 : List (Option Ptr))
    (rt1 rt2 : Ptr) (nd : Ptr) :
    reachableNodes (PointerSubgraph.mk ar ns1 rt1) nd =
      reachableNodes (PointerSubgraph.mk ar ns2 rt2) nd := by
  unfold reachableNodes
  exact bfsLoop_mk ar ns1 ns2 rt1 rt2 _ [nd] [nd]

theorem checkSuccEdges_mk (ar : List (Ptr × PSNodeData)) (ns1 ns2 : List (Option Ptr))
    (rt1 rt2 : Ptr) (nd : Ptr) :
    ∀ ss : List Ptr,
      checkSuccEdges (PointerSubgraph.mk ar ns1 rt1) nd ss =
        checkSuccEdges (PointerSubgraph.mk ar ns2 rt2) nd ss := by
  intro ss
  induction ss with
  | nil => rfl
  | cons s rest ih =>
    by_cases h : isInPredecessors (PointerSubgraph.mk ar ns1 rt1) nd s = true
    · have h2 : isInPredecessors (PointerSubgraph.mk ar ns2 rt2) nd s = true := h
      simp only [checkSuccEdges, if_pos h, if_pos h2, ih]
    · have h2 : ¬isInPredecessors (PointerSubgraph.mk ar ns2 rt2) nd s = true := h
      simp only [checkSuccEdges, if_neg h, if_neg h2, ih]

theorem checkOperandsNodes_mk (ar : List (Ptr × PSNodeData)) (ns1 ns2 : List (Option Ptr))
    (rt1 rt2 : Ptr) (known : List Ptr) :
    ∀ nodes : List (Option Ptr),
      checkOperandsNodes (PointerSubgraph.mk ar ns1 rt1) known nodes =
        checkOperandsNodes (PointerSubgraph.mk ar ns2 rt2) known nodes := by
  intro nodes
  induction nodes with
  | nil => rfl
  | cons o rest ih =>
    match o with
    | none => simp only [checkOperandsNodes, ih]
    | some m =>
      have e : (PointerSubgraph.mk ar ns1 rt1).deref m =
          (PointerSubgraph.mk ar ns2 rt2).deref m := rfl
      have eca : checkArityNode (PointerSubgraph.mk ar ns1 rt1) m =
          checkArityNode (PointerSubgraph.mk ar ns2 rt2) m := rfl
      simp only [checkOperandsNodes, e, eca, ih]

theorem checkEdgesNodes_mk (ar : List (Ptr × PSNodeData)) (ns1 ns2 : List (Option Ptr))
    (rt : Ptr) :
    ∀ nodes : List (Option Ptr),
      checkEdgesNodes (PointerSubgraph.mk ar ns1 rt) nodes =
        checkEdgesNodes (PointerSubgraph.mk ar ns2 rt) nodes := by
  intro nodes
  induction nodes with
  | nil => rfl
  | cons o rest ih =>
    match o with
    | none => simp only [checkEdgesNodes, ih]
    | some m =>
      have e : (PointerSubgraph.mk ar ns1 rt).deref m =
          (PointerSubgraph.mk ar ns2 rt).deref m := rfl
      have er : (PointerSubgraph.mk ar ns1 rt).root = (PointerSubgraph.mk ar ns2 rt).root := rfl
      have ec : canBeOutsideGraph (PointerSubgraph.mk ar ns1 rt) m =
          canBeOutsideGraph (PointerSubgraph.mk ar ns2 rt) m := rfl
      have es : succsOf (PointerSubgraph.mk ar ns1 rt) m =
          succsOf (PointerSubgraph.mk ar ns2 rt) m := rfl
      simp only [checkEdgesNodes, e, er, ec, es, checkSuccEdges_mk ar ns1 ns2 rt rt, ih]

theorem checkUnreachable_mk (ar : List (Ptr × PSNodeData)) (ns1 ns2 : List (Option Ptr))
    (rt1 rt2 : Ptr) (reachable : List Ptr) :
    ∀ nodes : List (Option Ptr),
      checkUnreachable (PointerSubgraph.mk ar ns1 rt1) reachable nodes =
        checkUnreachable (PointerSubgraph.mk ar ns2 rt2) reachable nodes := by
  intro nodes
  induction nodes with
  | nil => rfl
  | cons o rest ih =>
    match o with
    | none => simp only [checkUnreachable, ih]
    | some m =>
      have ec : canBeOutsideGraph (PointerSubgraph.mk ar ns1 rt1) m =
          canBeOutsideGraph (PointerSubgraph.mk ar ns2 rt2) m := rfl
      simp only [checkUnreachable, ec, ih]

/-- Claim C1: for every graph satisfying the five structural invariants of
§3, `validate()` returns false and the accumulated `errors()` text is
empty. -/
theorem validate_sound_on_valid (g : PointerSubgraph) (h : ValidGraph g) :
    validate g = (false, []) ∧ errorsString g = "" := by
  have hv := validate_valid g h
  refine ⟨hv, ?_⟩
  simp [errorsString, hv, String.join]

/-- Witness for C1 at a concrete one-node valid graph. -/
theorem validate_sound_on_valid_witness :
    validate exValid = (false, []) ∧ errorsString exValid = "" :=
  validate_sound_on_valid exValid
    ⟨by decide, by decide,
      by
        intro nd hnd
        have hn : nd = 10 := by simpa [nodeMembers, exValid] using hnd
        subst hn
        rfl,
      by decide,
      by
        intro nd hnd hroot _
        have hn : nd = 10 := by simpa [nodeMembers, exValid] using hnd
        subst hn
        exact absurd rfl hroot⟩

/-- Claim C2: Pass A enforces the arity table on every node of the node
set — PHI with no operands or a duplicated operand, the zero-operand kinds
with a nonzero count, the one-operand kinds with count other than one, and
STORE/MEMCPY with count other than two are each reported as invalid
operands; a node whose operand count matches its kind's contract (with
distinct operands for PHI) receives no arity diagnostic. -/
theorem checkOperands_arity_table (g : PointerSubgraph) (nd : Ptr)
    (hmem : some nd ∈ g.nodes) :
    ((g.deref nd).type = PSNodeType.PHI → (g.deref nd).operands = [] →
        Diag.mk DiagKind.invalOperands nd "Empty PHI" ∈ (checkOperands g).2) ∧
    ((g.deref nd).type = PSNodeType.PHI → ¬(g.deref nd).operands.Nodup →
        Diag.mk DiagKind.invalOperands nd "PHI Node contains duplicated operand"
          ∈ (checkOperands g).2) ∧
    (((g.deref nd).type = PSNodeType.NULL_ADDR ∨ (g.deref nd).type = PSNodeType.UNKNOWN_MEM ∨
        (g.deref nd).type = PSNodeType.NOOP ∨ (g.deref nd).type = PSNodeType.FUNCTION) →
      ¬(g.deref nd).operands.length = 0 →
        Diag.mk DiagKind.invalOperands nd "Should not have an operand" ∈ (checkOperands g).2) ∧
    (((g.deref nd).type = PSNodeType.GEP ∨ (g.deref nd).type = PSNodeType.LOAD ∨
        (g.deref nd).type = PSNodeType.CAST ∨
        (g.deref nd).type = PSNodeType.INVALIDATE_OBJECT ∨
        (g.deref nd).type = PSNodeType.CONSTANT ∨ (g.deref nd).type = PSNodeType.FREE) →
      ¬(g.deref nd).operands.length = 1 →
        Diag.mk DiagKind.invalOperands nd "Should have exactly one operand"
          ∈ (checkOperands g).2) ∧
    (((g.deref nd).type = PSNodeType.STORE ∨ (g.deref nd).type = PSNodeType.MEMCPY) →
      ¬(g.deref nd).operands.length = 2 →
        Diag.mk DiagKind.invalOperands nd "Should have exactly two operands"
          ∈ (checkOperands g).2) ∧
    (arityOk (g.deref nd) →
      ∀ m ∈ (["Empty PHI", "PHI Node contains duplicated operand",
          "Should not have an operand", "Should have exactly one operand",
          "Should have exactly two operands"] : List String),
        Diag.mk DiagKind.invalOperands nd m ∉ (checkOperands g).2) := by
  refine ⟨?_, ?_, ?_, ?_, ?_, ?_⟩
  · intro ht hops
    refine checkOperands_mem_arity g nd _ hmem ?_
    rw [checkArityNode_phi_empty g nd ht hops]
    exact List.mem_cons_self _ _
  · intro ht hdup
    refine checkOperands_mem_arity g nd _ hmem ?_
    rw [checkArityNode_phi_dup g nd ht hdup]
    exact List.mem_cons_self _ _
  · intro ht hlen
    refine checkOperands_mem_arity g nd _ hmem ?_
    rw [checkArityNode_zero g nd ht hlen]
    exact List.mem_cons_self _ _
  · intro ht hlen
    refine checkOperands_mem_arity g nd _ hmem ?_
    rw [checkArityNode_one g nd ht hlen]
    exact List.mem_cons_self _ _
  · intro ht hlen
    refine checkOperands_mem_arity g nd _ hmem ?_
    rw [checkArityNode_two g nd ht hlen]
    exact List.mem_cons_self _ _
  · intro har m hm hd
    simp only [checkOperands, List.mem_append] at hd
    rcases hd with hd1 | hd2
    · obtain ⟨hk, _⟩ := knownNodesLoop_diag_shape g.nodes [] _ hd1
      simp at hk
    · obtain ⟨k, hk, hcase⟩ := checkOperandsNodes_mem_elim g _ g.nodes _ hd2
      rcases hcase with hc | hc
      · have hsh := checkUnknownOperands_shape _ k _ _ hc
        have hmsg : m = "Node has unknown (maybe dangling) operand" := by
          simpa using congrArg Diag.msg hsh
        subst hmsg
        revert hm
        decide
      · have hsh := checkArityNode_shape g k _ hc
        have hnode : nd = k := by simpa using hsh.2.1
        subst hnode
        rw [checkArityNode_arityOk g nd har] at hc
        simp at hc

/-- Witness for C2 at a PHI node with empty operand list. -/
theorem checkOperands_arity_table_witness :
    Diag.mk DiagKind.invalOperands 11 "Empty PHI" ∈ (checkOperands exPhi).2 :=
  (checkOperands_arity_table exPhi 11 (by decide)).1 rfl rfl

/-- Claim C3: an operand that is not one of the three sentinels and not a
member of the node set yields an unknown/dangling-operand diagnostic for
its node and makes `validate()` return true, and the number of dangling
diagnostics emitted for a node equals the number of its operands that are
neither sentinels nor members (so sentinel or member operands trigger no
such report). -/
theorem checkOperands_dangling_operands (g : PointerSubgraph) (nd op : Ptr)
    (hmem : some nd ∈ g.nodes) (hop : op ∈ (g.deref nd).operands) :
    ((¬op = NULLPTR ∧ ¬op = UNKNOWN_MEMORY ∧ ¬op = INVALIDATED) → ¬some op ∈ g.nodes →
        Diag.mk DiagKind.invalOperands nd "Node has unknown (maybe dangling) operand"
            ∈ (checkOperands g).2 ∧
          (validate g).1 = true) ∧
    (checkUnknownOperands (knownNodesLoop g.nodes []).1 nd (g.deref nd).operands).2.length =
      (g.deref nd).operands.countP (fun o =>
        decide (¬o = NULLPTR ∧ ¬o = UNKNOWN_MEMORY ∧ ¬o = INVALIDATED ∧
          ¬some o ∈ g.nodes)) := by
  constructor
  · rintro ⟨h1, h2, h3⟩ h4
    have hknown : ¬op ∈ (knownNodesLoop g.nodes []).1 := by
      rw [knownNodesLoop_fst_mem]
      simp [h4]
    have hd := checkUnknownOperands_mem (knownNodesLoop g.nodes []).1 nd _ op hop
      h1 h2 h3 hknown
    have hd2 := checkOperands_mem_unknown g nd _ hmem hd
    exact ⟨hd2, validate_true_of_mem_checkOperands g _ hd2⟩
  · rw [checkUnknownOperands_length]
    refine List.countP_congr ?_
    intro o _
    have hiff : (o ∈ (knownNodesLoop g.nodes []).1) ↔ some o ∈ g.nodes := by
      rw [knownNodesLoop_fst_mem]
      simp
    simp only [decide_eq_true_eq]
    rw [hiff]

/-- Witness for C3 at a LOAD with a dangling operand. -/
theorem checkOperands_dangling_operands_witness :
    Diag.mk DiagKind.invalOperands 10 "Node has unknown (maybe dangling) operand"
        ∈ (checkOperands exDangling).2 ∧
      (validate exDangling).1 = true :=
  (checkOperands_dangling_operands exDangling 10 99 (by decide) (by decide)).1
    (by decide) (by decide)

/-- Claim C4: a successor edge A → B whose target does not list A back as
a predecessor produces an edge-symmetry diagnostic for A and makes
`validate()` return true; if every successor edge of every node is
mirrored, no symmetry diagnostic appears. -/
theorem checkEdges_symmetry (g : PointerSubgraph) (a b : Ptr) (hmem : some a ∈ g.nodes) :
    (b ∈ succsOf g a → ¬a ∈ (g.deref b).predecessors →
        Diag.mk DiagKind.invalEdges a
            "Node not set as a predecessor of some of its successors" ∈ (checkEdges g).2 ∧
          (validate g).1 = true) ∧
    ((∀ nd, some nd ∈ g.nodes → ∀ s ∈ succsOf g nd, nd ∈ (g.deref s).predecessors) →
      ∀ d ∈ (checkEdges g).2,
        d.msg ≠ "Node not set as a predecessor of some of its successors") := by
  constructor
  · intro hb hnp
    have hf : isInPredecessors g a b = false := by
      rw [← Bool.not_eq_true, isInPredecessors_iff]
      exact hnp
    have hd := checkSuccEdges_mem g a (succsOf g a) b hb hf
    have hd2 : Diag.mk DiagKind.invalEdges a
        "Node not set as a predecessor of some of its successors" ∈ (checkEdges g).2 := by
      simp only [checkEdges, List.mem_append]
      exact Or.inl (checkEdgesNodes_sym_mem g g.nodes a _ hmem hd)
    exact ⟨hd2, validate_true_of_mem_checkEdges g _ hd2⟩
  · intro hall d hd
    simp only [checkEdges, List.mem_append] at hd
    rcases hd with hd | hd
    · obtain ⟨k, hk, hcase⟩ := checkEdgesNodes_mem_elim g g.nodes d hd
      rcases hcase with ⟨heq, _⟩ | hc
      · subst heq
        exact (by decide :
          ("Non-root node has no predecessors" : String) ≠
            "Node not set as a predecessor of some of its successors")
      · obtain ⟨heq, s, hs, hf⟩ := checkSuccEdges_shape g k _ d hc
        have htrue : isInPredecessors g k s = true := by
          rw [isInPredecessors_iff]
          exact hall k hk s hs
        rw [htrue] at hf
        simp at hf
    · obtain ⟨k, _, _, _, heq⟩ := checkUnreachable_mem_elim g _ g.nodes d hd
      subst heq
      exact (by decide :
        ("" : String) ≠ "Node not set as a predecessor of some of its successors")

/-- Witness for C4 at a one-sided edge. -/
theorem checkEdges_symmetry_witness :
    Diag.mk DiagKind.invalEdges 10 "Node not set as a predecessor of some of its successors"
        ∈ (checkEdges exAsym).2 ∧
      (validate exAsym).1 = true :=
  (checkEdges_symmetry exAsym 10 11 (by decide)).1 (by decide) (by decide)

/-- Claim C5: `checkEdges` flags every non-root node of a non-exempt kind
with zero predecessors and reports unreachable every non-exempt node with
no successor path from the root; nodes of the four exempt kinds are never
flagged for either condition. -/
theorem checkEdges_connectivity (g : PointerSubgraph) (nd : Ptr) (hmem : some nd ∈ g.nodes) :
    (¬canBeOutsideGraph g nd = true → ¬nd = g.root → (g.deref nd).predecessors = [] →
        Diag.mk DiagKind.invalEdges nd "Non-root node has no predecessors"
          ∈ (checkEdges g).2) ∧
    (¬canBeOutsideGraph g nd = true → ¬ReachableFrom g g.root nd →
        Diag.mk DiagKind.unreachableNode nd "" ∈ (checkEdges g).2) ∧
    (canBeOutsideGraph g nd = true →
        Diag.mk DiagKind.invalEdges nd "Non-root node has no predecessors"
            ∉ (checkEdges g).2 ∧
          Diag.mk DiagKind.unreachableNode nd "" ∉ (checkEdges g).2) := by
  refine ⟨?_, ?_, ?_⟩
  · intro hout hroot hp
    simp only [checkEdges, List.mem_append]
    refine Or.inl (checkEdgesNodes_pred_mem g g.nodes nd hmem ?_ hroot hout)
    rw [hp]
    rfl
  · intro hout hur
    simp only [checkEdges, List.mem_append]
    refine Or.inr (checkUnreachable_mem g _ g.nodes nd hmem ?_ hout)
    intro hmem2
    exact hur (reachable_sound g g.root nd hmem2)
  · intro hout
    constructor
    · intro hd
      simp only [checkEdges, List.mem_append] at hd
      rcases hd with hd | hd
      · obtain ⟨k, hk, hcase⟩ := checkEdgesNodes_mem_elim g g.nodes _ hd
        rcases hcase with ⟨heq, _, _, hout2⟩ | hc
        · have hnode : nd = k := by simpa using congrArg Diag.node heq
          subst hnode
          exact hout2 hout
        · obtain ⟨heq, _⟩ := checkSuccEdges_shape g k _ _ hc
          have hmsg : "Non-root node has no predecessors" =
              "Node not set as a predecessor of some of its successors" :=
            congrArg Diag.msg heq
          exact absurd hmsg (by decide)
      · obtain ⟨k, _, _, _, heq⟩ := checkUnreachable_mem_elim g _ g.nodes _ hd
        have hknd : DiagKind.invalEdges = DiagKind.unreachableNode := congrArg Diag.kind heq
        exact absurd hknd (by decide)
    · intro hd
      simp only [checkEdges, List.mem_append] at hd
      rcases hd with hd | hd
      · obtain ⟨k, hk, hcase⟩ := checkEdgesNodes_mem_elim g g.nodes _ hd
        rcases hcase with ⟨heq, _⟩ | hc
        · have hknd : DiagKind.unreachableNode = DiagKind.invalEdges := congrArg Diag.kind heq
          exact absurd hknd (by decide)
        · obtain ⟨heq, _⟩ := checkSuccEdges_shape g k _ _ hc
          have hknd : DiagKind.unreachableNode = DiagKind.invalEdges := congrArg Diag.kind heq
          exact absurd hknd (by decide)
      · obtain ⟨k, _, _, hout2, heq⟩ := checkUnreachable_mem_elim g _ g.nodes _ hd
        have hnode : nd = k := by simpa using congrArg Diag.node heq
        subst hnode
        exact hout2 hout

/-- Witness for C5: a disconnected NOOP is flagged twice, a disconnected
FUNCTION node is never reported unreachable. -/
theorem checkEdges_connectivity_witness :
    Diag.mk DiagKind.invalEdges 20 "Non-root node has no predecessors"
        ∈ (checkEdges exConn).2 ∧
      Diag.mk DiagKind.unreachableNode 20 "" ∈ (checkEdges exConn).2 ∧
      Diag.mk DiagKind.unreachableNode 21 "" ∉ (checkEdges exConn).2 :=
  ⟨(checkEdges_connectivity exConn 20 (by decide)).1 (by decide) (by decide) rfl,
   (checkEdges_connectivity exConn 20 (by decide)).2.1 (by decide)
     (fun h => absurd (reachable_complete exConn exConn.root 20 h) (by decide)),
   ((checkEdges_connectivity exConn 21 (by decide)).2.2 (by decide)).2⟩

/-- Claim C6: a node object occurring more than once in the node sequence
is reported as an invalid node ("Node multiple times in the graph"), and
checking continues: later checks (such as the empty-PHI arity check on any
node) still produce their diagnostics and `validate()` returns true. -/
theorem checkOperands_duplicate_node (g : PointerSubgraph) (nd : Ptr)
    (hdup : List.Duplicate (some nd) g.nodes) :
    Diag.mk DiagKind.invalNode nd "Node multiple times in the graph" ∈ (checkOperands g).2 ∧
      (∀ nd2, some nd2 ∈ g.nodes → (g.deref nd2).type = PSNodeType.PHI →
        (g.deref nd2).operands = [] →
        Diag.mk DiagKind.invalOperands nd2 "Empty PHI" ∈ (checkOperands g).2) ∧
      (validate g).1 = true := by
  have h1 := checkOperands_mem_dup g nd hdup
  refine ⟨h1, ?_, validate_true_of_mem_checkOperands g _ h1⟩
  intro nd2 hm ht hops
  refine checkOperands_mem_arity g nd2 _ hm ?_
  rw [checkArityNode_phi_empty g nd2 ht hops]
  exact List.mem_cons_self _ _

/-- Witness for C6 at a node listed twice. -/
theorem checkOperands_duplicate_node_witness :
    Diag.mk DiagKind.invalNode 10 "Node multiple times in the graph"
        ∈ (checkOperands exDup).2 ∧
      (validate exDup).1 = true :=
  ⟨(checkOperands_duplicate_node exDup 10 (by decide)).1,
   (checkOperands_duplicate_node exDup 10 (by decide)).2.2⟩

/-- Claim C7: `validate()` runs both passes unconditionally, returns the
OR of their findings with both passes' diagnostics accumulated, and
returns true exactly when at least one diagnostic entry was appended. -/
theorem validate_runs_both_passes (g : PointerSubgraph) :
    validate g = ((checkOperands g).1 || (checkEdges g).1,
        (checkOperands g).2 ++ (checkEdges g).2) ∧
      ((validate g).1 = true ↔ (validate g).2 ≠ []) := by
  refine ⟨rfl, ?_⟩
  have h1 := checkOperands_true_iff g
  have h2 := checkEdges_true_iff g
  simp only [validate, Bool.or_eq_true, h1, h2, ne_eq, List.append_eq_nil, not_and]
  tauto

/-- Claim C8: the validator never mutates the graph: the subgraph
component of the validator state is unchanged by `validate()`, only the
diagnostics member accumulates, and re-running `validate()` yields the
same verdict with the graph still untouched. -/
theorem validator_no_mutation (v : Validator) :
    (validatorValidate v).2.PS = v.PS ∧
      (validatorValidate v).2.errors = v.errors ++ (validate v.PS).2 ∧
      (validatorValidate (validatorValidate v).2).1 = (validatorValidate v).1 ∧
      (validatorValidate (validatorValidate v).2).2.PS = v.PS :=
  ⟨rfl, rfl, rfl, rfl⟩

/-- Claim C9: the breadth-first worklist loop of `reachableNodes`
stabilises within the fuel bound on every finite node set — any fuel at
least the universe bound computes the same set, so the source's unbounded
while loop terminates even on cyclic graphs — the reachable set never
holds a node twice, and it always contains the start node. -/
theorem reachableNodes_terminates (g : PointerSubgraph) (nd : Ptr) (fuel : Nat)
    (hfuel : (bfsUniverse g nd).length + 1 ≤ fuel) :
    bfsLoop g fuel [nd] [nd] = reachableNodes g nd ∧
      nd ∈ reachableNodes g nd ∧ (reachableNodes g nd).Nodup :=
  ⟨reachableNodes_stable g nd fuel hfuel, reachableNodes_start_mem g nd,
    reachableNodes_nodup g nd⟩

/-- Witness for C9 on a two-node successor cycle. -/
theorem reachableNodes_terminates_witness :
    bfsLoop exCycle 7 [10] [10] = reachableNodes exCycle 10 ∧
      10 ∈ reachableNodes exCycle 10 ∧ (reachableNodes exCycle 10).Nodup :=
  reachableNodes_terminates exCycle 10 7 (by decide)

/-- Claim C10: a null entry in the node sequence is silently skipped by
both passes: removing it changes neither the verdict nor the diagnostics
of `validate()`. -/
theorem null_entries_skipped (ar : List (Ptr × PSNodeData)) (l1 l2 : List (Option Ptr))
    (rt : Ptr) :
    validate (PointerSubgraph.mk ar (l1 ++ none :: l2) rt) =
      validate (PointerSubgraph.mk ar (l1 ++ l2) rt) := by
  have h1 : checkOperands (PointerSubgraph.mk ar (l1 ++ none :: l2) rt) =
      checkOperands (PointerSubgraph.mk ar (l1 ++ l2) rt) := by
    simp only [checkOperands]
    rw [knownNodesLoop_skip_none,
      checkOperandsNodes_mk ar (l1 ++ none :: l2) (l1 ++ l2) rt rt,
      checkOperandsNodes_skip_none]
  have h2 : checkEdges (PointerSubgraph.mk ar (l1 ++ none :: l2) rt) =
      checkEdges (PointerSubgraph.mk ar (l1 ++ l2) rt) := by
    simp only [checkEdges]
    rw [checkEdgesNodes_mk ar (l1 ++ none :: l2) (l1 ++ l2) rt,
      checkEdgesNodes_skip_none,
      reachableNodes_mk ar (l1 ++ none :: l2) (l1 ++ l2) rt rt,
      checkUnreachable_mk ar (l1 ++ none :: l2) (l1 ++ l2) rt rt,
      checkUnreachable_skip_none]
  simp only [validate, h1, h2]
